import Mathlib

/-!
Verification development for the gurmukhiutils normalization and
ASCII-to-Unicode conversion engine (`gurmukhiutils/unicode.py`).

Strings are modelled as `List Char` (a Python `str` is a sequence of code
points; every code point occurring in this library is a Unicode scalar
value, so Lean's `Char` is a faithful carrier).  Each definition below is a
direct transcription of the corresponding Python function; recursion that
Python expresses through `re.sub` scanning or `str.replace` scanning is
expressed with structural recursion (adding fuel where the scan skips more
than one character at a time, so that everything reduces in the kernel).
-/

namespace GurmukhiUtils

/-! ## Character classes of `sort_diacritics` (unicode.py lines 278-331) -/

/-- nukta_udaat_yakash_order_list from the source. -/
def nukta_udaat_yakash_order_list : List Char := ['਼', 'ੑ', 'ੵ']

/-- vowel_order_list from the source. -/
def vowel_order_list : List Char := ['ਿ', 'ੇ', 'ੈ', 'ੋ', 'ੌ', 'ੁ', 'ੂ', 'ਾ', 'ੀ']

/-- remaining_diacritic_order_list from the source. -/
def remaining_diacritic_order_list : List Char := ['ਁ', 'ੱ', 'ਂ', 'ੰ', 'ਃ']

/-- generated_single_chars: the single-codepoint diacritics matched by the
`d_pattern` character class. -/
def generated_single_chars : List Char :=
  nukta_udaat_yakash_order_list ++ vowel_order_list ++ remaining_diacritic_order_list

/-- Membership in the `d_pattern` character class. -/
def isD (c : Char) : Bool := generated_single_chars.contains c

/-- subjoin_constructor: the virama used to build below-base ligatures. -/
def subjoin_constructor : Char := '੍'

/-- subjoin_consonants from the source. -/
def subjoin_consonants : List Char := ['ਹ', 'ਰ', 'ਵ', 'ਟ', 'ਤ', 'ਨ', 'ਚ']

/-- Membership in subjoin_consonants. -/
def isCons (c : Char) : Bool := subjoin_consonants.contains c

/-- generated_diacritic_order: the custom sort-order string used as the
`key` of Python's `sorted`. -/
def generated_diacritic_order : List Char :=
  nukta_udaat_yakash_order_list ++ [subjoin_constructor] ++ subjoin_consonants
    ++ vowel_order_list ++ remaining_diacritic_order_list

/-- The sort key of `regex_sort_func`: `generated_diacritic_order.index(e)`.
`List.indexOf` returns the list length for absent characters; within a regex
match every character is present, matching Python's `.index`. -/
def sortKey (c : Char) : Nat := generated_diacritic_order.indexOf c

/-! ## The sort used by `regex_sort_func`.

Python's `sorted(match, key=...)` is a stable sort by `sortKey`.  Within any
regex match all characters belong to `generated_diacritic_order`, where
`sortKey` is injective, so any stable-by-key sort produces the same list; we
use a plain insertion sort. -/

/-- Insert a character into a list that is sorted by `sortKey`. -/
def insertK (c : Char) : List Char → List Char
  | [] => [c]
  | x :: xs => if sortKey c ≤ sortKey x then c :: x :: xs else x :: insertK c xs

/-- Sort a list of characters by `sortKey` (stable insertion sort, equal to
Python's `sorted(..., key=lambda e: generated_diacritic_order.index(e))` on
lists whose characters all lie in `generated_diacritic_order`). -/
def sortK : List Char → List Char
  | [] => []
  | c :: cs => insertK c (sortK cs)

/-- regex_sort_func: sort a matched span, returning spans of length ≤ 1
unchanged (unicode.py lines 353-361). -/
def regex_sort_func (m : List Char) : List Char :=
  if 1 < m.length then sortK m else m

/-! ## The regex scan of `sort_diacritics`.

The pattern is `([D]*)(੍[cons])?([D]*)`.  `re.sub` scans left to right; at
each position the (possibly empty) greedy match is computed, a nonempty
match is replaced by `regex_sort_func` of it and scanning resumes after it,
while an empty match leaves the next character untouched (the replacement of
an empty match is empty). -/

/-- The greedy match of `([D]*)(੍[cons])?([D]*)` at the head of `s`:
returns the matched span and the remainder. -/
def matchAt (s : List Char) : List Char × List Char :=
  let d1 := s.takeWhile isD
  let r1 := s.dropWhile isD
  match r1 with
  | j :: c :: r2 =>
    if j = subjoin_constructor ∧ isCons c then
      (d1 ++ j :: c :: r2.takeWhile isD, r2.dropWhile isD)
    else (d1, r1)
  | _ => (d1, r1)

/-- The `re.sub` scan, with fuel (the fuel is only there to make the
recursion structural; `sort_diacritics` supplies `s.length`, which is always
enough because a nonempty match consumes at least one character). -/
def sdAux : Nat → List Char → List Char
  | _, [] => []
  | 0, s => s
  | f + 1, c :: cs =>
    match matchAt (c :: cs) with
    | ([], _) => c :: sdAux f cs
    | (m, r) => regex_sort_func m ++ sdAux f r

/-- sort_diacritics (unicode.py lines 253-369): reorder every maximal
diacritic span according to `generated_diacritic_order`. -/
def sort_diacritics (s : List Char) : List Char := sdAux s.length s

/-! ## sanitize_unicode (unicode.py lines 372-399).

Every key of `unicode_sanitization_map` is exactly two code points and every
value exactly one, so `str.replace` for one table entry is the left-to-right
non-overlapping two-character replacement `replace2`. -/

/-- One `string.replace(key, value)` pass for a two-character key `[a, b]`
and one-character value `[v]`. -/
def replace2 (a b v : Char) : List Char → List Char
  | x :: y :: t =>
    if x = a ∧ y = b then v :: replace2 a b v t else x :: replace2 a b v (y :: t)
  | s => s

/-- unicode_sanitization_map, in declared order, as (first, second, value)
code-point triples. -/
def unicode_sanitization_map : List (Char × Char × Char) :=
  [ ('\u0A73', '\u0A4B', '\u0A13'),  -- letter oora + hora = oo
    ('\u0A05', '\u0A3E', '\u0A06'),  -- aira + kanna = aa
    ('\u0A72', '\u0A3F', '\u0A07'),  -- iri + sihari = i
    ('\u0A72', '\u0A40', '\u0A08'),  -- iri + bihari = ii
    ('\u0A73', '\u0A41', '\u0A09'),  -- oora + aunkar = u
    ('\u0A73', '\u0A42', '\u0A0A'),  -- oora + dulainkar = uu
    ('\u0A72', '\u0A47', '\u0A0F'),  -- iri + lavan = ee
    ('\u0A05', '\u0A48', '\u0A10'),  -- aira + dulavan = ai
    ('\u0A05', '\u0A4C', '\u0A14'),  -- aira + kanaura = au
    ('\u0A32', '\u0A3C', '\u0A33'),  -- laa + nukta = laa-nukta
    ('\u0A38', '\u0A3C', '\u0A36'),  -- saa + nukta = shaa
    ('\u0A59', '\u0A3C', '\u0A59'),  -- khhaa + nukta = khhaa
    ('\u0A5A', '\u0A3C', '\u0A5A'),  -- ghhaa + nukta = ghhaa
    ('\u0A5B', '\u0A3C', '\u0A5B'),  -- zaa + nukta = zaa
    ('\u0A5E', '\u0A3C', '\u0A5E'),  -- faa + nukta = faa
    ('\u0A71', '\u0A02', '\u0A01') ] -- addak + bindi = adak bindi

/-- sanitize_unicode: apply the sanitization replacements in declared
order. -/
def sanitize_unicode (s : List Char) : List Char :=
  unicode_sanitization_map.foldl (fun s e => replace2 e.1 e.2.1 e.2.2 s) s

/-- unicode_normalize (unicode.py lines 231-250). -/
def unicode_normalize (s : List Char) : List Char :=
  sanitize_unicode (sort_diacritics s)

/-! ## Generic `str.replace` (used by the `unicode` conversion tables).

`repAux` scans the string one character at a time; the `Nat` argument is the
number of already-matched key characters still to be skipped, which keeps the
recursion structural in the list.  `replaceStr key val s` is Python's
`s.replace(key, val)` for a nonempty `key`. -/

def isPref : List Char → List Char → Bool
  | [], _ => true
  | _ :: _, [] => false
  | k :: ks, c :: cs => k = c && isPref ks cs

def repAux (key val : List Char) : Nat → List Char → List Char
  | _, [] => []
  | 0, c :: cs =>
    if isPref key (c :: cs) then val ++ repAux key val (key.length - 1) cs
    else c :: repAux key val 0 cs
  | n + 1, _ :: cs => repAux key val n cs

/-- Python `s.replace(key, val)` (left-to-right, non-overlapping).  All keys
in this development are nonempty; for an empty key we return `s` unchanged
(Python would behave differently, but no table contains an empty key). -/
def replaceStr (key val s : List Char) : List Char :=
  if key = [] then s else repAux key val 0 s

/-- Apply every `(key, value)` replacement of a table, in declared order
(the Python `for key, value in map.items(): string = string.replace(...)`
loop). -/
def applyMap (m : List (List Char × List Char)) (s : List Char) : List Char :=
  m.foldl (fun s kv => replaceStr kv.1 kv.2 s) s

/-! ## The three substitution tables of `unicode` (unicode.py lines 34-194),
in declared (insertion) order. -/

def common_ascii_to_unicode_map : List (List Char × List Char) :=
  [
    (['a'], ['\u0A73']),  -- a
    (['b'], ['\u0A2C']),  -- b
    (['c'], ['\u0A1A']),  -- c
    (['d'], ['\u0A26']),  -- d
    (['e'], ['\u0A72']),  -- e
    (['f'], ['\u0A21']),  -- f
    (['g'], ['\u0A17']),  -- g
    (['h'], ['\u0A39']),  -- h
    (['i'], ['\u0A3F']),  -- i
    (['j'], ['\u0A1C']),  -- j
    (['k'], ['\u0A15']),  -- k
    (['l'], ['\u0A32']),  -- l
    (['m'], ['\u0A2E']),  -- m
    (['n'], ['\u0A28']),  -- n
    (['o'], ['\u0A4B']),  -- o
    (['p'], ['\u0A2A']),  -- p
    (['q'], ['\u0A24']),  -- q
    (['r'], ['\u0A30']),  -- r
    (['s'], ['\u0A38']),  -- s
    (['t'], ['\u0A1F']),  -- t
    (['u'], ['\u0A41']),  -- u
    (['v'], ['\u0A35']),  -- v
    (['w'], ['\u0A3E']),  -- w
    (['x'], ['\u0A23']),  -- x
    (['y'], ['\u0A47']),  -- y
    (['z'], ['\u0A5B']),  -- z
    (['A'], ['\u0A05']),  -- A
    (['B'], ['\u0A2D']),  -- B
    (['C'], ['\u0A1B']),  -- C
    (['D'], ['\u0A27']),  -- D
    (['E'], ['\u0A13']),  -- E
    (['F'], ['\u0A22']),  -- F
    (['G'], ['\u0A18']),  -- G
    (['H'], ['\u0A4D', '\u0A39']),  -- H
    (['I'], ['\u0A40']),  -- I
    (['J'], ['\u0A1D']),  -- J
    (['K'], ['\u0A16']),  -- K
    (['L'], ['\u0A33']),  -- L
    (['M'], ['\u0A70']),  -- M
    (['N'], ['\u0A02']),  -- N
    (['O'], ['\u0A4C']),  -- O
    (['P'], ['\u0A2B']),  -- P
    (['Q'], ['\u0A25']),  -- Q
    (['R'], ['\u0A4D', '\u0A30']),  -- R
    (['S'], ['\u0A36']),  -- S
    (['T'], ['\u0A20']),  -- T
    (['U'], ['\u0A42']),  -- U
    (['V'], ['\u0A5C']),  -- V
    (['W'], ['\u0A3E', '\u0A02']),  -- W
    (['X'], ['\u0A2F']),  -- X
    (['Y'], ['\u0A48']),  -- Y
    (['Z'], ['\u0A5A']),  -- Z
    (['0'], ['\u0A66']),  -- 0
    (['1'], ['\u0A67']),  -- 1
    (['2'], ['\u0A68']),  -- 2
    (['3'], ['\u0A69']),  -- 3
    (['4'], ['\u0A6A']),  -- 4
    (['5'], ['\u0A6B']),  -- 5
    (['6'], ['\u0A6C']),  -- 6
    (['7'], ['\u0A6D']),  -- 7
    (['8'], ['\u0A6E']),  -- 8
    (['9'], ['\u0A6F']),  -- 9
    (['['], ['\u0964']),  -- [
    ([']'], ['\u0965']),  -- ]
    (['\\'], ['\u0A1E']),  -- \
    (['|'], ['\u0A19']),  -- |
    (['\u0060'], ['\u0A71']),  -- U+0060
    (['~'], ['\u0A71']),  -- ~
    (['@'], ['\u0A51']),  -- @
    (['^'], ['\u0A59']),  -- ^
    (['&'], ['\u0A5E']),  -- &
    (['\u2020'], ['\u0A4D', '\u0A1F']),  -- U+2020
    (['\u00FC'], ['\u0A41']),  -- U+00FC
    (['\u00AE'], ['\u0A4D', '\u0A30']),  -- U+00AE
    (['\u00B4'], ['\u0A75']),  -- U+00B4
    (['\u00A8'], ['\u0A42']),  -- U+00A8
    (['\u00B5'], ['\u0A70']),  -- U+00B5
    (['\u00E6'], ['\u0A3C']),  -- U+00E6
    (['\u00A1'], ['\u0A74']),  -- U+00A1
    (['\u0192'], ['\u0A28', '\u0A42', '\u0A70']),  -- U+0192
    (['\u0153'], ['\u0A4D', '\u0A24']),  -- U+0153
    (['\u00CD'], ['\u0A4D', '\u0A35']),  -- U+00CD
    (['\u00CE'], ['\u0A4D', '\u0A2F']),  -- U+00CE
    (['\u00CF'], ['\u0A75']),  -- U+00CF
    (['\u00D2'], ['\u0965']),  -- U+00D2
    (['\u00DA'], ['\u0A03']),  -- U+00DA
    (['\u02C6'], ['\u0A02']),  -- U+02C6
    (['\u02DC'], ['\u0A4D', '\u0A28']),  -- U+02DC
    (['<', '>'], ['\u0A74']),  -- <>
    (['<'], ['\u0A74']),  -- <
    (['>'], ['\u262C']),  -- >
    (['\u00C5', '\u00E5'], ['\u0A74']),  -- U+00C5U+00E5
    (['\u00C5'], ['\u0A74']),  -- U+00C5
    (['\u00E5'], ['\u0A74']),  -- U+00E5
    (['\u00A7'], ['\u0A4D', '\u0A39', '\u0A42']),  -- U+00A7
    (['\u00A4'], ['\u0A71']),  -- U+00A4
    (['\u00E7'], ['\u0A4D', '\u0A1A']),  -- U+00E7
    (['\u00C7'], ['\u262C']),  -- U+00C7
    (['\u201A'], ['\u2741']),  -- U+201A
    (['\u00C6'], []),  -- U+00C6
    (['\u00D8'], []),  -- U+00D8
    (['\u00FF'], []),  -- U+00FF
    (['\u0152'], []),  -- U+0152
    (['\u2030'], []),  -- U+2030
    (['\u00D3'], []),  -- U+00D3
    (['\u00D4'], []) ]  -- U+00D4

def special_sant_lipi_map : List (List Char × List Char) :=
  [
    (['\u00CE'], ['\uEEEC']),  -- U+00CE
    (['\u0A4D', '\u0A2F'], ['\uEEEC']),  -- U+0A4DU+0A2F
    (['\u00EE'], ['\uEEEE']),  -- U+00EE
    (['\u00EF'], ['\uEEEF']),  -- U+00EF
    (['\u2080'], ['\uEE80']),  -- U+2080
    (['\u2081'], ['\uEE81']),  -- U+2081
    (['\u2082'], ['\uEE82']),  -- U+2082
    (['\u2083'], ['\uEE83']),  -- U+2083
    (['\u2084'], ['\uEE84']),  -- U+2084
    (['\u2085'], ['\uEE85']),  -- U+2085
    (['\u2086'], ['\uEE86']),  -- U+2086
    (['\u2087'], ['\uEE87']),  -- U+2087
    (['\u2088'], ['\uEE88']),  -- U+2088
    (['\u2089'], ['\uEE89']) ]  -- U+2089

def sant_lipi_to_unicode_compliant_map : List (List Char × List Char) :=
  [
    (['\uEEEC'], ['\u0A4D', '\u0A2F']),  -- U+EEEC
    (['\uEEEE'], ['\u0A4D', '\u0A2F']),  -- U+EEEE
    (['\uEEEF'], ['\u0A2F']),  -- U+EEEF
    (['\uEE80'], ['\u2080']),  -- U+EE80
    (['\uEE81'], ['\u2081']),  -- U+EE81
    (['\uEE82'], ['\u2082']),  -- U+EE82
    (['\uEE83'], ['\u2083']),  -- U+EE83
    (['\uEE84'], ['\u2084']),  -- U+EE84
    (['\uEE85'], ['\u2085']),  -- U+EE85
    (['\uEE86'], ['\u2086']),  -- U+EE86
    (['\uEE87'], ['\u2087']),  -- U+EE87
    (['\uEE88'], ['\u2088']),  -- U+EE88
    (['\uEE89'], ['\u2089']) ]  -- U+EE89

/-! ## The sihari repositioning pass (unicode.py lines 196-199).

`re.sub(r"(i)([a-zA-Z\|^&...])", r"\2\1", string)`: scanning left to
right, every occurrence of `i` immediately followed by a base-letter
character is swapped with it, non-overlapping. -/

/-- Membership in the `[a-zA-Z\|^&Îîï]` character class. -/
def isAsciiBaseLetter (c : Char) : Bool :=
  ('a' ≤ c && c ≤ 'z') || ('A' ≤ c && c ≤ 'Z') ||
    ['|', '^', '&', '\u00CE', '\u00EE', '\u00EF'].contains c

/-- The sihari-repositioning `re.sub` scan. -/
def moveSihari : List Char → List Char
  | x :: y :: t =>
    if x = 'i' ∧ isAsciiBaseLetter y then y :: x :: moveSihari t
    else x :: moveSihari (y :: t)
  | s => s

/-! ## The final half-yayya fixup (unicode.py line 226).

`re.sub("(੍ਯ)([਼੍ੵਿੇੈੋੌੁੂਾੀਁੱਂੰਃ]+)", r"ਯ\2", string)`: a subjoined
half-yayya followed by at least one character of the bracketed class is
replaced by the full yayya followed by the same characters.  Note the class
contains the virama U+0A4D but not the udaat U+0A51. -/

/-- The character class of the half-yayya fixup regex. -/
def yayyaFixupClass : List Char :=
  ['\u0A4D', '\u0A3C', '\u0A75', '\u0A3F', '\u0A47', '\u0A48', '\u0A4B',
   '\u0A4C', '\u0A41', '\u0A42', '\u0A3E', '\u0A40', '\u0A01', '\u0A71',
   '\u0A02', '\u0A70', '\u0A03']

/-- Membership in the fixup class. -/
def isYayyaFixup (c : Char) : Bool := yayyaFixupClass.contains c

/-- The half-yayya letter ਯ. -/
def yayya : Char := '\u0A2F'

/-- The fixup `re.sub` scan (fuel-driven; `yayyaFixup` supplies the string
length, which always suffices since every match consumes ≥ 3 characters). -/
def yfAux : Nat → List Char → List Char
  | _, [] => []
  | 0, s => s
  | f + 1, a :: rest =>
    match rest with
    | b :: t =>
      if a = subjoin_constructor ∧ b = yayya ∧ (t.takeWhile isYayyaFixup) ≠ [] then
        yayya :: t.takeWhile isYayyaFixup ++ yfAux f (t.dropWhile isYayyaFixup)
      else a :: yfAux f (b :: t)
    | [] => [a]

/-- The half-yayya + diacritics fixup applied in Unicode-Consortium mode. -/
def yayyaFixup (s : List Char) : List Char := yfAux s.length s

/-- The `unicode_standard` selector (the `UNICODE_STANDARDS` Literal). -/
inductive UnicodeStandard : Type
  | consortium   -- "Unicode Consortium"
  | santLipi     -- "Sant Lipi"
deriving DecidableEq

/-- unicode (unicode.py lines 7-228): sihari repositioning, then the common
ASCII map, then the Sant Lipi map, then `unicode_normalize`, then (in
Unicode-Consortium mode only) the compliant map and the half-yayya fixup. -/
def unicode (s : List Char)
    (standard : UnicodeStandard := UnicodeStandard.consortium) : List Char :=
  let s := moveSihari s
  let s := applyMap common_ascii_to_unicode_map s
  let s := applyMap special_sant_lipi_map s
  let s := unicode_normalize s
  match standard with
  | UnicodeStandard.consortium =>
      yayyaFixup (applyMap sant_lipi_to_unicode_compliant_map s)
  | UnicodeStandard.santLipi => s


/-! ## Basic lemmas about the diacritic scan -/

theorem matchAt_eq_lig {s : List Char} {c : Char} {r2 : List Char}
    (h : s.dropWhile isD = subjoin_constructor :: c :: r2) (hc : isCons c) :
    matchAt s =
      (s.takeWhile isD ++ subjoin_constructor :: c :: r2.takeWhile isD,
       r2.dropWhile isD) := by
  unfold matchAt
  rw [h]
  simp [hc]

theorem matchAt_eq_nolig {s : List Char}
    (h : ∀ c r2, s.dropWhile isD = subjoin_constructor :: c :: r2 → ¬ isCons c) :
    matchAt s = (s.takeWhile isD, s.dropWhile isD) := by
  unfold matchAt
  cases hd : s.dropWhile isD with
  | nil => rfl
  | cons j r1 =>
    cases r1 with
    | nil => rfl
    | cons c r2 =>
      have : ¬ (j = subjoin_constructor ∧ isCons c) := by
        rintro ⟨rfl, hcons⟩
        exact h c r2 hd hcons
      simp [this]

theorem matchAt_append (s : List Char) : (matchAt s).1 ++ (matchAt s).2 = s := by
  have hs : s.takeWhile isD ++ s.dropWhile isD = s :=
    List.takeWhile_append_dropWhile isD s
  by_cases hl : ∃ c r2, s.dropWhile isD = subjoin_constructor :: c :: r2 ∧ isCons c
  · obtain ⟨c, r2, hd, hc⟩ := hl
    rw [matchAt_eq_lig hd hc]
    have h2 : r2.takeWhile isD ++ r2.dropWhile isD = r2 :=
      List.takeWhile_append_dropWhile isD r2
    rw [List.append_assoc]
    simp only [List.cons_append, h2]
    rw [← hd]
    exact hs
  · have h' : ∀ c r2, s.dropWhile isD = subjoin_constructor :: c :: r2 → ¬ isCons c := by
      intro c r2 hd hc
      exact hl ⟨c, r2, hd, hc⟩
    rw [matchAt_eq_nolig h']
    exact hs

theorem matchAt_fst_nil {s r : List Char} (h : matchAt s = ([], r)) : r = s := by
  have := matchAt_append s
  rw [h] at this
  simpa using this

theorem sdAux_eq_of_le :
    ∀ (f g : Nat) (s : List Char), s.length ≤ f → s.length ≤ g → sdAux f s = sdAux g s := by
  intro f
  induction f with
  | zero =>
    intro g s hf _
    have : s = [] := List.eq_nil_of_length_eq_zero (Nat.le_zero.mp hf)
    subst this
    cases g <;> rfl
  | succ f ih =>
    intro g s hf hg
    cases s with
    | nil => cases g <;> rfl
    | cons c cs =>
      cases g with
      | zero => exact absurd hg (by simp)
      | succ g =>
        show sdAux (f + 1) (c :: cs) = sdAux (g + 1) (c :: cs)
        rw [sdAux, sdAux]
        cases hm : matchAt (c :: cs) with
        | mk m r =>
          cases m with
          | nil =>
            have hcs : cs.length ≤ f := Nat.le_of_succ_le_succ hf
            have hcs' : cs.length ≤ g := Nat.le_of_succ_le_succ hg
            simp only [ih g cs hcs hcs']
          | cons m0 ms =>
            have happ := matchAt_append (c :: cs)
            rw [hm] at happ
            have hr : r.length ≤ cs.length := by
              have : (m0 :: ms).length + r.length = (c :: cs).length := by
                rw [← List.length_append, happ]
              simp only [List.length_cons] at this
              omega
            exact congrArg _ (ih g r (Nat.le_trans hr (Nat.le_of_succ_le_succ hf))
              (Nat.le_trans hr (Nat.le_of_succ_le_succ hg)))

theorem sort_diacritics_nil : sort_diacritics [] = [] := rfl

theorem sort_diacritics_cons_nomatch {c : Char} {cs r : List Char}
    (h : matchAt (c :: cs) = ([], r)) :
    sort_diacritics (c :: cs) = c :: sort_diacritics cs := by
  unfold sort_diacritics
  show sdAux (cs.length + 1) (c :: cs) = _
  rw [sdAux, h]

theorem sort_diacritics_cons_match {c : Char} {cs m r : List Char}
    (h : matchAt (c :: cs) = (m, r)) (hm : m ≠ []) :
    sort_diacritics (c :: cs) = regex_sort_func m ++ sort_diacritics r := by
  have happ := matchAt_append (c :: cs)
  rw [h] at happ
  have hr : r.length ≤ cs.length := by
    have hl : m.length + r.length = (c :: cs).length := by
      rw [← List.length_append, happ]
    have : 1 ≤ m.length := by
      cases m with
      | nil => exact absurd rfl hm
      | cons _ _ => simp
    simp only [List.length_cons] at hl
    omega
  unfold sort_diacritics
  show sdAux (cs.length + 1) (c :: cs) = _
  rw [sdAux, h]
  cases m with
  | nil => exact absurd rfl hm
  | cons m0 ms =>
    exact congrArg _ (sdAux_eq_of_le cs.length r.length r hr (Nat.le_refl _))

/-! ## Permutation facts for the sorter -/

theorem insertK_perm (c : Char) (l : List Char) : List.Perm (insertK c l) (c :: l) := by
  induction l with
  | nil => exact List.Perm.refl _
  | cons x xs ih =>
    rw [insertK]
    by_cases h : sortKey c ≤ sortKey x
    · rw [if_pos h]
    · rw [if_neg h]
      exact (ih.cons x).trans (List.Perm.swap c x xs)

theorem sortK_perm (l : List Char) : List.Perm (sortK l) l := by
  induction l with
  | nil => exact List.Perm.refl _
  | cons c cs ih =>
    rw [sortK]
    exact (insertK_perm c (sortK cs)).trans (ih.cons c)

theorem regex_sort_func_perm (m : List Char) : List.Perm (regex_sort_func m) m := by
  rw [regex_sort_func]
  by_cases h : 1 < m.length
  · rw [if_pos h]; exact sortK_perm m
  · rw [if_neg h]

theorem matchAt_snd_length {c : Char} {cs m r : List Char}
    (h : matchAt (c :: cs) = (m, r)) (hm : m ≠ []) : r.length ≤ cs.length := by
  have happ := matchAt_append (c :: cs)
  rw [h] at happ
  have hl : m.length + r.length = (c :: cs).length := by
    rw [← List.length_append, happ]
  have : 1 ≤ m.length := by
    cases m with
    | nil => exact absurd rfl hm
    | cons _ _ => simp
  simp only [List.length_cons] at hl
  omega

theorem sort_diacritics_perm (s : List Char) : List.Perm (sort_diacritics s) s := by
  have H : ∀ (n : Nat) (s : List Char), s.length ≤ n →
      List.Perm (sort_diacritics s) s := by
    intro n
    induction n with
    | zero =>
      intro s h
      have : s = [] := List.eq_nil_of_length_eq_zero (Nat.le_zero.mp h)
      subst this
      exact List.Perm.refl _
    | succ n ih =>
      intro s hlen
      cases s with
      | nil => exact List.Perm.refl _
      | cons c cs =>
        cases hm : matchAt (c :: cs) with
        | mk m r =>
          cases m with
          | nil =>
            rw [sort_diacritics_cons_nomatch hm]
            exact (ih cs (by simpa using Nat.le_of_succ_le_succ hlen)).cons c
          | cons m0 ms =>
            rw [sort_diacritics_cons_match hm (by simp)]
            have happ := matchAt_append (c :: cs)
            rw [hm] at happ
            have hr : r.length ≤ n := by
              have := matchAt_snd_length hm (by simp)
              have hcs : cs.length ≤ n := Nat.le_of_succ_le_succ hlen
              omega
            rw [← happ]
            exact List.Perm.append (regex_sort_func_perm _) (ih r hr)
  exact H s.length s (Nat.le_refl _)

/-! ## Claim C8 -/

/-- C8: for every input string, the output of `sort_diacritics` is a
permutation of the input — same length, same multiset of characters; the
sorter never drops, duplicates, or substitutes a character. -/
theorem claim_C8_sorter_permutes (s : List Char) :
    List.Perm (sort_diacritics s) s ∧
    (sort_diacritics s).length = s.length ∧
    ∀ c : Char, (sort_diacritics s).count c = s.count c := by
  refine ⟨sort_diacritics_perm s, (sort_diacritics_perm s).length_eq, ?_⟩
  intro c
  exact (sort_diacritics_perm s).count_eq c

/-! ## Claim C3 -/

set_option maxRecDepth 100000 in
/-- C3: the ASCII-to-Unicode entry point reproduces the spec's concrete
examples: `unicode "123" = "੧੨੩"`, `unicode "<> > <" = "ੴ ☬ ੴ"`, and
`unicode "gurU" = "ਗੁਰੂ"` (default Unicode-Consortium standard). -/
theorem claim_C3_concrete_conversions :
    unicode ['1', '2', '3'] = ['੧', '੨', '੩'] ∧
    unicode ['<', '>', ' ', '>', ' ', '<'] =
      ['ੴ', ' ', '☬', ' ', 'ੴ'] ∧
    unicode ['g', 'u', 'r', 'U'] = ['ਗ', 'ੁ', 'ਰ', 'ੂ'] := by
  refine ⟨by decide, by decide, by decide⟩

/-! ## Claim C4: the sihari repositioning pass -/

/-- Spec-side base-letter class (§4.2 of the spec / claim C4): an ASCII
letter, or one of the ligature-marker characters `|`, `^`, `&`, `Î`, `î`,
`ï`. -/
def isBaseLetterSpec (c : Char) : Bool :=
  ('a' ≤ c && c ≤ 'z') || ('A' ≤ c && c ≤ 'Z') ||
    ['|', '^', '&', 'Î', 'î', 'ï'].contains c

/-- Spec-side repositioner, following the claim's words: every occurrence of
the pre-base sihari `i` standing immediately before a base letter is swapped
to stand immediately after it, processing pairs left to right without
overlap; all other characters are unaffected. -/
def moveSihariSpec : List Char → List Char
  | [] => []
  | [x] => [x]
  | x :: y :: t =>
    if x = 'i' ∧ isBaseLetterSpec y then y :: 'i' :: moveSihariSpec t
    else x :: moveSihariSpec (y :: t)

/-- The pipeline of `unicode` from the ASCII substitution onwards — i.e.
everything that runs after the sihari repositioning. -/
def unicodeAfterSihari (s : List Char) (standard : UnicodeStandard) : List Char :=
  let s := applyMap common_ascii_to_unicode_map s
  let s := applyMap special_sant_lipi_map s
  let s := unicode_normalize s
  match standard with
  | UnicodeStandard.consortium =>
      yayyaFixup (applyMap sant_lipi_to_unicode_compliant_map s)
  | UnicodeStandard.santLipi => s

theorem moveSihari_eq_spec : ∀ s, moveSihari s = moveSihariSpec s := by
  have H : ∀ (n : Nat) (s : List Char), s.length ≤ n → moveSihari s = moveSihariSpec s := by
    intro n
    induction n with
    | zero =>
      intro s h
      have : s = [] := List.eq_nil_of_length_eq_zero (Nat.le_zero.mp h)
      subst this
      rfl
    | succ n ih =>
      intro s hlen
      cases s with
      | nil => rfl
      | cons x rest =>
        cases rest with
        | nil => rfl
        | cons y t =>
          rw [moveSihari, moveSihariSpec]
          by_cases h : x = 'i' ∧ isAsciiBaseLetter y
          · have h' : x = 'i' ∧ isBaseLetterSpec y := h
            rw [if_pos h, if_pos h', h.1]
            have ht : t.length ≤ n := by
              simp only [List.length_cons] at hlen
              omega
            rw [ih t ht]
          · have h' : ¬ (x = 'i' ∧ isBaseLetterSpec y) := h
            rw [if_neg h, if_neg h']
            have ht : (y :: t).length ≤ n := by
              simp only [List.length_cons] at hlen ⊢
              omega
            rw [ih (y :: t) ht]
  intro s
  exact H s.length s (Nat.le_refl _)

/-- C4: before any ASCII-to-Unicode substitution, the conversion pipeline
swaps every occurrence of the pre-base sihari `i` standing immediately
before a base letter (ASCII letter or `|`, `^`, `&`, `Î`, `î`, `ï`) to
stand immediately after it, left to right and without overlap; base letters
not preceded by `i` are unaffected. -/
theorem claim_C4_sihari_repositioning :
    (∀ s : List Char, moveSihari s = moveSihariSpec s) ∧
    (∀ (s : List Char) (std : UnicodeStandard),
      unicode s std = unicodeAfterSihari (moveSihari s) std) := by
  refine ⟨moveSihari_eq_spec, ?_⟩
  intro s std
  cases std <;> rfl

/-- C4 witness: the repositioning and pipeline-order facts evaluated at the
repository's own test input `"ਮil"`. -/
theorem claim_C4_witness :
    moveSihari ['ਮ', 'i', 'l'] = moveSihariSpec ['ਮ', 'i', 'l'] ∧
    unicode ['ਮ', 'i', 'l'] UnicodeStandard.consortium =
      unicodeAfterSihari (moveSihari ['ਮ', 'i', 'l']) UnicodeStandard.consortium :=
  ⟨claim_C4_sihari_repositioning.1 ['ਮ', 'i', 'l'],
   claim_C4_sihari_repositioning.2 ['ਮ', 'i', 'l'] UnicodeStandard.consortium⟩

/-! ## Claim C5: the half-yayya + diacritics fixup -/

/-- Spec-side mark class for the fixup, as amended: the nukta, the virama
and the yakash, the vowel signs, and the trailing marks — the udaat ੑ
(U+0A51) is not included, even though the spec's UdaatYakash mark class
contains it. -/
def yayyaFixupClassSpec : List Char :=
  ['੍', '਼', 'ੵ'] ++ vowel_order_list ++ remaining_diacritic_order_list

/-- Membership in the spec-side fixup class. -/
def isYayyaFixupSpec (c : Char) : Bool := yayyaFixupClassSpec.contains c

/-- Spec-side fixup scan: every occurrence of subjoined half-yayya ੍ਯ
immediately followed by one or more marks of `yayyaFixupClassSpec` is
rewritten to the full letter ਯ followed by the same marks, left to right. -/
def yfSpecAux : Nat → List Char → List Char
  | _, [] => []
  | 0, s => s
  | f + 1, a :: rest =>
    match rest with
    | b :: t =>
      if a = subjoin_constructor ∧ b = yayya ∧ (t.takeWhile isYayyaFixupSpec) ≠ [] then
        yayya :: t.takeWhile isYayyaFixupSpec ++ yfSpecAux f (t.dropWhile isYayyaFixupSpec)
      else a :: yfSpecAux f (b :: t)
    | [] => [a]

/-- Spec-side fixup. -/
def yayyaFixupSpec (s : List Char) : List Char := yfSpecAux s.length s

theorem yayyaFixup_pred_eq : isYayyaFixup = isYayyaFixupSpec := by
  have h : yayyaFixupClass = yayyaFixupClassSpec := by decide
  funext c
  rw [isYayyaFixup, isYayyaFixupSpec, h]

theorem yfAux_eq_spec : ∀ f s, yfAux f s = yfSpecAux f s := by
  intro f
  induction f with
  | zero => intro s; cases s <;> rfl
  | succ f ih =>
    intro s
    cases s with
    | nil => rfl
    | cons a rest =>
      cases rest with
      | nil => rfl
      | cons b t =>
        show (if a = subjoin_constructor ∧ b = yayya ∧ (t.takeWhile isYayyaFixup) ≠ []
            then yayya :: t.takeWhile isYayyaFixup ++ yfAux f (t.dropWhile isYayyaFixup)
            else a :: yfAux f (b :: t)) =
          (if a = subjoin_constructor ∧ b = yayya ∧ (t.takeWhile isYayyaFixupSpec) ≠ []
            then yayya :: t.takeWhile isYayyaFixupSpec ++ yfSpecAux f (t.dropWhile isYayyaFixupSpec)
            else a :: yfSpecAux f (b :: t))
        rw [yayyaFixup_pred_eq, ih (t.dropWhile isYayyaFixupSpec), ih (b :: t)]

set_option maxRecDepth 10000 in
/-- C5 counterexample: on the input ੍ਯੑ (subjoined half-yayya followed by
the udaat mark ੑ, an UdaatYakash-class mark), the Unicode-Consortium
pipeline leaves the string unchanged, whereas the claim requires it to be
rewritten to ਯੑ: the fixup's character class does not contain the udaat. -/
theorem claim_C5_counterexample :
    unicode ['੍', 'ਯ', 'ੑ'] UnicodeStandard.consortium = ['੍', 'ਯ', 'ੑ'] ∧
    (['੍', 'ਯ', 'ੑ'] : List Char) ≠ ['ਯ', 'ੑ'] := by
  refine ⟨by decide, by decide⟩

/-- C5 (amended): in Unicode-Consortium mode the pipeline finishes by
rewriting every occurrence of subjoined half-yayya ੍ਯ immediately followed
by one or more marks from {virama ੍, nukta ਼, yakash ੵ} ∪ vowel signs ∪
trailing marks (not the udaat ੑ) into the full letter ਯ followed by the
same marks; in Sant Lipi mode this fixup is not applied. -/
theorem claim_C5_yayya_fixup_amended :
    (yayyaFixupClass = yayyaFixupClassSpec) ∧
    (∀ s : List Char, yayyaFixup s = yayyaFixupSpec s) ∧
    (∀ s : List Char, unicode s UnicodeStandard.consortium =
      yayyaFixup (applyMap sant_lipi_to_unicode_compliant_map
        (unicode_normalize (applyMap special_sant_lipi_map
          (applyMap common_ascii_to_unicode_map (moveSihari s)))))) ∧
    (∀ s : List Char, unicode s UnicodeStandard.santLipi =
      unicode_normalize (applyMap special_sant_lipi_map
        (applyMap common_ascii_to_unicode_map (moveSihari s)))) := by
  refine ⟨by decide, ?_, fun s => rfl, fun s => rfl⟩
  intro s
  rw [yayyaFixup, yayyaFixupSpec, yfAux_eq_spec]

/-! ## Generic insertion sort by a key function.

`regex_sort_func` sorts by `sortKey`; the spec's canonical cluster order
sorts the marks by their rank in the mark-only order.  The generic
`sortByKey` lets both be analysed with one set of lemmas. -/

def insertByKey (k : Char → Nat) (c : Char) : List Char → List Char
  | [] => [c]
  | x :: xs => if k c ≤ k x then c :: x :: xs else x :: insertByKey k c xs

def sortByKey (k : Char → Nat) : List Char → List Char
  | [] => []
  | c :: cs => insertByKey k c (sortByKey k cs)

theorem insertK_eq_insertByKey (c : Char) (l : List Char) :
    insertK c l = insertByKey sortKey c l := by
  induction l with
  | nil => rfl
  | cons x xs ih =>
    rw [insertK, insertByKey, ih]

theorem sortK_eq_sortByKey (l : List Char) : sortK l = sortByKey sortKey l := by
  induction l with
  | nil => rfl
  | cons c cs ih => rw [sortK, sortByKey, ih, insertK_eq_insertByKey]

theorem insertByKey_perm (k : Char → Nat) (c : Char) (l : List Char) :
    List.Perm (insertByKey k c l) (c :: l) := by
  induction l with
  | nil => exact List.Perm.refl _
  | cons x xs ih =>
    rw [insertByKey]
    by_cases h : k c ≤ k x
    · rw [if_pos h]
    · rw [if_neg h]
      exact (ih.cons x).trans (List.Perm.swap c x xs)

theorem sortByKey_perm (k : Char → Nat) (l : List Char) :
    List.Perm (sortByKey k l) l := by
  induction l with
  | nil => exact List.Perm.refl _
  | cons c cs ih =>
    rw [sortByKey]
    exact (insertByKey_perm k c (sortByKey k cs)).trans (ih.cons c)

theorem pairwise_insertByKey (k : Char → Nat) (c : Char) {l : List Char}
    (h : l.Pairwise (fun a b => k a ≤ k b)) :
    (insertByKey k c l).Pairwise (fun a b => k a ≤ k b) := by
  induction l with
  | nil => simp [insertByKey]
  | cons x xs ih =>
    rw [insertByKey]
    rcases List.pairwise_cons.mp h with ⟨hx, hxs⟩
    by_cases hc : k c ≤ k x
    · rw [if_pos hc]
      refine List.pairwise_cons.mpr ⟨?_, h⟩
      intro b hb
      rcases List.mem_cons.mp hb with rfl | hb'
      · exact hc
      · exact Nat.le_trans hc (hx b hb')
    · rw [if_neg hc]
      refine List.pairwise_cons.mpr ⟨?_, ih hxs⟩
      intro b hb
      have hmem : b ∈ c :: xs := (List.Perm.mem_iff (insertByKey_perm k c xs)).mp hb
      rcases List.mem_cons.mp hmem with rfl | hb'
      · exact Nat.le_of_not_le hc
      · exact hx b hb'

theorem pairwise_sortByKey (k : Char → Nat) (l : List Char) :
    (sortByKey k l).Pairwise (fun a b => k a ≤ k b) := by
  induction l with
  | nil => simp [sortByKey]
  | cons c cs ih =>
    rw [sortByKey]
    exact pairwise_insertByKey k c ih

/-- Two key-sorted lists that are permutations of each other and whose
elements have pairwise-distinct keys (for distinct characters) are equal. -/
theorem eq_of_perm_of_pairwise_key (k : Char → Nat) :
    ∀ {l1 l2 : List Char}, List.Perm l1 l2 →
      l1.Pairwise (fun a b => k a ≤ k b) →
      l2.Pairwise (fun a b => k a ≤ k b) →
      (∀ a ∈ l1, ∀ b ∈ l1, k a = k b → a = b) →
      l1 = l2 := by
  intro l1
  induction l1 with
  | nil =>
    intro l2 hp _ _ _
    exact (List.Perm.nil_eq hp).symm ▸ rfl
  | cons x t1 ih =>
    intro l2 hp h1 h2 hinj
    cases l2 with
    | nil => exact absurd hp.symm (by simp)
    | cons y t2 =>
      rcases List.pairwise_cons.mp h1 with ⟨hx, ht1⟩
      rcases List.pairwise_cons.mp h2 with ⟨hy, ht2⟩
      have hxy : x = y := by
        have hxmem : x ∈ y :: t2 := hp.mem_iff.mp (by simp)
        have hymem : y ∈ x :: t1 := hp.symm.mem_iff.mp (by simp)
        rcases List.mem_cons.mp hxmem with h | h
        · exact h
        · have hyx : k y ≤ k x := hy x h
          rcases List.mem_cons.mp hymem with h' | h'
          · exact h'.symm
          · have hxky : k x ≤ k y := hx y h'
            exact hinj x (by simp) y (by simp [h']) (Nat.le_antisymm hxky hyx)
      subst hxy
      have hperm : List.Perm t1 t2 := hp.cons_inv
      have : t1 = t2 := by
        refine ih hperm ht1 ht2 ?_
        intro a ha b hb
        exact hinj a (by simp [ha]) b (by simp [hb])
      rw [this]

/-! ## Shape of a regex match -/

theorem matchAt_shape (s : List Char) :
    ∃ d1 lig d2, (matchAt s).1 = d1 ++ lig ++ d2 ∧
      (∀ c ∈ d1, isD c = true) ∧ (∀ c ∈ d2, isD c = true) ∧
      ((lig = [] ∧ d2 = []) ∨ ∃ c, isCons c = true ∧ lig = [subjoin_constructor, c]) := by
  by_cases hl : ∃ c r2, s.dropWhile isD = subjoin_constructor :: c :: r2 ∧ isCons c
  · obtain ⟨c, r2, hd, hc⟩ := hl
    refine ⟨s.takeWhile isD, [subjoin_constructor, c], r2.takeWhile isD, ?_, ?_, ?_, ?_⟩
    · rw [matchAt_eq_lig hd hc]
      simp
    · intro x hx
      exact List.mem_takeWhile_imp hx
    · intro x hx
      exact List.mem_takeWhile_imp hx
    · exact Or.inr ⟨c, hc, rfl⟩
  · have h' : ∀ c r2, s.dropWhile isD = subjoin_constructor :: c :: r2 → ¬ isCons c := by
      intro c r2 hd hc
      exact hl ⟨c, r2, hd, hc⟩
    refine ⟨s.takeWhile isD, [], [], ?_, ?_, ?_, Or.inl ⟨rfl, rfl⟩⟩
    · rw [matchAt_eq_nolig h']
      simp
    · intro x hx
      exact List.mem_takeWhile_imp hx
    · intro x hx
      exact (List.not_mem_nil x hx).elim

/-! ## The claim's canonical cluster order -/

/-- The rank of a mark in the claim's canonical mark order (nukta-class
marks ਼ ੑ ੵ, then vowel signs ਿ ੇ ੈ ੋ ੌ ੁ ੂ ਾ ੀ, then trailing marks
ਁ ੱ ਂ ੰ ਃ); the subjoined ligature is not a mark and has no rank here. -/
def claimMarkKey (c : Char) : Nat := generated_single_chars.indexOf c

/-! Finite facts about the two key functions, established by evaluation. -/

theorem isD_iff_mem {c : Char} : isD c = true ↔ c ∈ generated_single_chars := by
  rw [isD]
  exact List.elem_iff

theorem isCons_iff_mem {c : Char} : isCons c = true ↔ c ∈ subjoin_consonants := by
  rw [isCons]
  exact List.elem_iff

theorem key_corr : ∀ a ∈ generated_single_chars, ∀ b ∈ generated_single_chars,
    (claimMarkKey a ≤ claimMarkKey b ↔ sortKey a ≤ sortKey b) := by decide

theorem key_low_iff : ∀ a ∈ generated_single_chars,
    (claimMarkKey a < 3 ↔ sortKey a < 3) := by decide

theorem key_high : ∀ a ∈ generated_single_chars,
    3 ≤ claimMarkKey a → 11 ≤ sortKey a := by decide

theorem sortKey_virama : sortKey subjoin_constructor = 3 := by decide

theorem sortKey_cons : ∀ c ∈ subjoin_consonants,
    4 ≤ sortKey c ∧ sortKey c ≤ 10 := by decide

theorem sortKey_inj : ∀ a ∈ generated_diacritic_order, ∀ b ∈ generated_diacritic_order,
    sortKey a = sortKey b → a = b := by decide

theorem gsc_sub_gdo : ∀ c ∈ generated_single_chars, c ∈ generated_diacritic_order := by
  decide

theorem cons_sub_gdo : ∀ c ∈ subjoin_consonants, c ∈ generated_diacritic_order := by
  decide

theorem virama_mem_gdo : subjoin_constructor ∈ generated_diacritic_order := by decide

theorem isD_virama : isD subjoin_constructor = false := by decide

theorem isD_cons : ∀ c ∈ subjoin_consonants, isD c = false := by decide

/-! ## The claim's canonical form of a matched span (claim C1) -/

/-- The claim-side canonical rewriting of one matched span: spans of length
≤ 1 are returned unchanged; otherwise the marks are sorted into the claim's
canonical mark order, with the nukta/udaat/yakash-class marks first, then
the subjoined ligature (the span's non-mark characters), then the vowel
signs and trailing marks in canonical order. -/
def specCanonical (m : List Char) : List Char :=
  if 1 < m.length then
    (sortByKey claimMarkKey (m.filter isD)).takeWhile
        (fun c => decide (claimMarkKey c < 3)) ++
      m.filter (fun c => !(isD c)) ++
      (sortByKey claimMarkKey (m.filter isD)).dropWhile
        (fun c => decide (claimMarkKey c < 3))
  else m

theorem mem_dropWhile_key_ge (k : Char → Nat) (n : Nat) :
    ∀ {l : List Char}, l.Pairwise (fun a b => k a ≤ k b) →
      ∀ x ∈ l.dropWhile (fun c => decide (k c < n)), ¬ k x < n := by
  intro l
  induction l with
  | nil => intro _ x hx; exact absurd hx (List.not_mem_nil x)
  | cons c cs ih =>
    intro hp x hx
    rcases List.pairwise_cons.mp hp with ⟨hc, hcs⟩
    by_cases h : k c < n
    · rw [List.dropWhile_cons, if_pos (by simpa using h)] at hx
      exact ih hcs x hx
    · rw [List.dropWhile_cons, if_neg (by simpa using h)] at hx
      rcases List.mem_cons.mp hx with rfl | hx'
      · exact h
      · intro hlt
        exact h (Nat.lt_of_le_of_lt (hc x hx') hlt)

theorem regex_sort_func_eq_spec {m d1 lig d2 : List Char}
    (hm : m = d1 ++ lig ++ d2)
    (hd1 : ∀ c ∈ d1, isD c = true) (hd2 : ∀ c ∈ d2, isD c = true)
    (hlig : (lig = [] ∧ d2 = []) ∨
      ∃ c, isCons c = true ∧ lig = [subjoin_constructor, c]) :
    regex_sort_func m = specCanonical m := by
  by_cases hlen : 1 < m.length
  case neg =>
    rw [regex_sort_func, if_neg hlen, specCanonical, if_neg hlen]
  case pos =>
  rw [regex_sort_func, if_pos hlen, specCanonical, if_pos hlen, sortK_eq_sortByKey]
  have hfilter_lig : lig.filter isD = [] := by
    rcases hlig with ⟨rfl, _⟩ | ⟨c, hc, rfl⟩
    · rfl
    · have h1 : isD subjoin_constructor = false := isD_virama
      have h2 : isD c = false := isD_cons c (isCons_iff_mem.mp hc)
      simp [List.filter, h1, h2]
  have hds : m.filter isD = d1 ++ d2 := by
    rw [hm, List.filter_append, List.filter_append,
      List.filter_eq_self.mpr hd1, List.filter_eq_self.mpr hd2, hfilter_lig]
    simp
  have hlig' : m.filter (fun c => !(isD c)) = lig := by
    have hnot1 : d1.filter (fun c => !(isD c)) = [] :=
      List.filter_eq_nil_iff.mpr (fun a ha => by simp [hd1 a ha])
    have hnot2 : d2.filter (fun c => !(isD c)) = [] :=
      List.filter_eq_nil_iff.mpr (fun a ha => by simp [hd2 a ha])
    have hnotlig : lig.filter (fun c => !(isD c)) = lig := by
      rcases hlig with ⟨rfl, _⟩ | ⟨c, hc, rfl⟩
      · rfl
      · have h1 : isD subjoin_constructor = false := isD_virama
        have h2 : isD c = false := isD_cons c (isCons_iff_mem.mp hc)
        simp [List.filter, h1, h2]
    rw [hm, List.filter_append, List.filter_append, hnot1, hnot2, hnotlig]
    simp
  set p : Char → Bool := fun c => decide (claimMarkKey c < 3) with hp
  set sorted := sortByKey claimMarkKey (m.filter isD) with hsorted
  have hsort_perm : List.Perm sorted (m.filter isD) := sortByKey_perm _ _
  have hsort_pair : sorted.Pairwise (fun a b => claimMarkKey a ≤ claimMarkKey b) :=
    pairwise_sortByKey _ _
  have hsort_mem : ∀ x ∈ sorted, x ∈ generated_single_chars := by
    intro x hx
    have : x ∈ m.filter isD := hsort_perm.mem_iff.mp hx
    exact isD_iff_mem.mp (List.mem_filter.mp this).2
  set T := sorted.takeWhile p with hT
  set Dr := sorted.dropWhile p with hDr
  have hTDr : T ++ Dr = sorted := List.takeWhile_append_dropWhile p sorted
  have hT_mem : ∀ x ∈ T, x ∈ sorted := fun x hx => (List.takeWhile_sublist p).mem hx
  have hDr_mem : ∀ x ∈ Dr, x ∈ sorted := fun x hx => (List.dropWhile_sublist p).mem hx
  have hT_low : ∀ x ∈ T, claimMarkKey x < 3 := by
    intro x hx
    have := List.mem_takeWhile_imp hx
    simpa [hp] using this
  have hDr_high : ∀ x ∈ Dr, 3 ≤ claimMarkKey x := by
    intro x hx
    exact Nat.le_of_not_lt (mem_dropWhile_key_ge claimMarkKey 3 hsort_pair x hx)
  have hT_sort_low : ∀ x ∈ T, sortKey x < 3 := by
    intro x hx
    exact (key_low_iff x (hsort_mem x (hT_mem x hx))).mp (hT_low x hx)
  have hDr_sort_high : ∀ x ∈ Dr, 11 ≤ sortKey x := by
    intro x hx
    exact key_high x (hsort_mem x (hDr_mem x hx)) (hDr_high x hx)
  have hlig_range : ∀ b ∈ lig, 3 ≤ sortKey b ∧ sortKey b ≤ 10 := by
    intro b hb
    rcases hlig with ⟨rfl, _⟩ | ⟨c, hc, rfl⟩
    · exact absurd hb (List.not_mem_nil b)
    · rcases List.mem_cons.mp hb with rfl | hb'
      · rw [sortKey_virama]; omega
      · rcases List.mem_cons.mp hb' with rfl | hb''
        · have := sortKey_cons b (isCons_iff_mem.mp hc)
          omega
        · exact absurd hb'' (List.not_mem_nil b)
  -- pairwise sortedness of the spec form
  have hpairT : T.Pairwise (fun a b => sortKey a ≤ sortKey b) := by
    have := hsort_pair.sublist (List.takeWhile_sublist p)
    refine this.imp_of_mem ?_
    intro a b ha hb hab
    exact (key_corr a (hsort_mem a (hT_mem a ha)) b (hsort_mem b (hT_mem b hb))).mp hab
  have hpairDr : Dr.Pairwise (fun a b => sortKey a ≤ sortKey b) := by
    have := hsort_pair.sublist (List.dropWhile_sublist p)
    refine this.imp_of_mem ?_
    intro a b ha hb hab
    exact (key_corr a (hsort_mem a (hDr_mem a ha)) b (hsort_mem b (hDr_mem b hb))).mp hab
  have hpairLig : lig.Pairwise (fun a b => sortKey a ≤ sortKey b) := by
    rcases hlig with ⟨rfl, _⟩ | ⟨c, hc, rfl⟩
    · exact List.Pairwise.nil
    · refine List.pairwise_cons.mpr ⟨?_, List.pairwise_singleton _ _⟩
      intro b hb
      rcases List.mem_cons.mp hb with rfl | hb'
      · rw [sortKey_virama]
        have := sortKey_cons b (isCons_iff_mem.mp hc)
        omega
      · exact absurd hb' (List.not_mem_nil b)
  have hpairB : (T ++ (lig ++ Dr)).Pairwise (fun a b => sortKey a ≤ sortKey b) := by
    refine List.pairwise_append.mpr ⟨hpairT, ?_, ?_⟩
    · refine List.pairwise_append.mpr ⟨hpairLig, hpairDr, ?_⟩
      intro a ha b hb
      have h1 := (hlig_range a ha).2
      have h2 := hDr_sort_high b hb
      omega
    · intro a ha b hb
      have h1 := hT_sort_low a ha
      rcases List.mem_append.mp hb with hb | hb
      · have := (hlig_range b hb).1
        omega
      · have := hDr_sort_high b hb
        omega
  -- the spec form is a permutation of the span
  have hpermB : List.Perm (T ++ (lig ++ Dr)) m := by
    have h1 : List.Perm (T ++ (lig ++ Dr)) (T ++ (Dr ++ lig)) :=
      ((List.perm_append_comm : List.Perm (lig ++ Dr) (Dr ++ lig))).append_left T
    have h2 : T ++ (Dr ++ lig) = (T ++ Dr) ++ lig := (List.append_assoc T Dr lig).symm
    have h3 : List.Perm ((T ++ Dr) ++ lig) ((d1 ++ d2) ++ lig) := by
      rw [hTDr]
      exact (hsort_perm.trans (by rw [hds])).append_right lig
    have h4 : List.Perm ((d1 ++ d2) ++ lig) m := by
      rw [hm, List.append_assoc, List.append_assoc]
      exact ((List.perm_append_comm : List.Perm (d2 ++ lig) (lig ++ d2))).append_left d1
    exact ((h1.trans (h2 ▸ List.Perm.refl _)).trans h3).trans h4
  -- the code's sorted span is a permutation of the span
  have hpermA : List.Perm (sortByKey sortKey m) m := sortByKey_perm _ _
  have hpairA : (sortByKey sortKey m).Pairwise (fun a b => sortKey a ≤ sortKey b) :=
    pairwise_sortByKey _ _
  -- injectivity of sortKey on the span
  have hm_gdo : ∀ a ∈ m, a ∈ generated_diacritic_order := by
    intro a ha
    rw [hm] at ha
    rcases List.mem_append.mp ha with h | h
    · rcases List.mem_append.mp h with h' | h'
      · exact gsc_sub_gdo a (isD_iff_mem.mp (hd1 a h'))
      · rcases hlig with ⟨rfl, _⟩ | ⟨c, hc, rfl⟩
        · exact absurd h' (List.not_mem_nil a)
        · rcases List.mem_cons.mp h' with rfl | h''
          · exact virama_mem_gdo
          · rcases List.mem_cons.mp h'' with rfl | h3
            · exact cons_sub_gdo a (isCons_iff_mem.mp hc)
            · exact absurd h3 (List.not_mem_nil a)
    · exact gsc_sub_gdo a (isD_iff_mem.mp (hd2 a h))
  have hinj : ∀ a ∈ sortByKey sortKey m, ∀ b ∈ sortByKey sortKey m,
      sortKey a = sortKey b → a = b := by
    intro a ha b hb hab
    exact sortKey_inj a (hm_gdo a (hpermA.mem_iff.mp ha))
      b (hm_gdo b (hpermA.mem_iff.mp hb)) hab
  have := eq_of_perm_of_pairwise_key sortKey
    (hpermA.trans hpermB.symm) hpairA hpairB hinj
  rw [hlig', List.append_assoc]
  exact this

/-- The claim-side scan: identical cluster identification, but each matched
span is rewritten by `specCanonical` (the claim's canonical order) instead
of the code's character sort. -/
def sdSpecAux : Nat → List Char → List Char
  | _, [] => []
  | 0, s => s
  | f + 1, c :: cs =>
    match matchAt (c :: cs) with
    | ([], _) => c :: sdSpecAux f cs
    | (m, r) => specCanonical m ++ sdSpecAux f r

/-- The claim-side diacritic sorter. -/
def sort_diacriticsSpec (s : List Char) : List Char := sdSpecAux s.length s

theorem sdSpecAux_eq_of_le :
    ∀ (f g : Nat) (s : List Char), s.length ≤ f → s.length ≤ g →
      sdSpecAux f s = sdSpecAux g s := by
  intro f
  induction f with
  | zero =>
    intro g s hf _
    have : s = [] := List.eq_nil_of_length_eq_zero (Nat.le_zero.mp hf)
    subst this
    cases g <;> rfl
  | succ f ih =>
    intro g s hf hg
    cases s with
    | nil => cases g <;> rfl
    | cons c cs =>
      cases g with
      | zero => exact absurd hg (by simp)
      | succ g =>
        show sdSpecAux (f + 1) (c :: cs) = sdSpecAux (g + 1) (c :: cs)
        rw [sdSpecAux, sdSpecAux]
        cases hm : matchAt (c :: cs) with
        | mk m r =>
          cases m with
          | nil =>
            have hcs : cs.length ≤ f := Nat.le_of_succ_le_succ hf
            have hcs' : cs.length ≤ g := Nat.le_of_succ_le_succ hg
            simp only [ih g cs hcs hcs']
          | cons m0 ms =>
            have hr := matchAt_snd_length hm (by simp)
            exact congrArg _ (ih g r (Nat.le_trans hr (Nat.le_of_succ_le_succ hf))
              (Nat.le_trans hr (Nat.le_of_succ_le_succ hg)))

theorem sort_diacriticsSpec_cons_nomatch {c : Char} {cs r : List Char}
    (h : matchAt (c :: cs) = ([], r)) :
    sort_diacriticsSpec (c :: cs) = c :: sort_diacriticsSpec cs := by
  unfold sort_diacriticsSpec
  show sdSpecAux (cs.length + 1) (c :: cs) = _
  rw [sdSpecAux, h]

theorem sort_diacriticsSpec_cons_match {c : Char} {cs m r : List Char}
    (h : matchAt (c :: cs) = (m, r)) (hm : m ≠ []) :
    sort_diacriticsSpec (c :: cs) = specCanonical m ++ sort_diacriticsSpec r := by
  have hr := matchAt_snd_length h hm
  unfold sort_diacriticsSpec
  show sdSpecAux (cs.length + 1) (c :: cs) = _
  rw [sdSpecAux, h]
  cases m with
  | nil => exact absurd rfl hm
  | cons m0 ms =>
    exact congrArg _ (sdSpecAux_eq_of_le cs.length r.length r hr (Nat.le_refl _))

theorem sort_diacritics_eq_spec : ∀ s, sort_diacritics s = sort_diacriticsSpec s := by
  have H : ∀ (n : Nat) (s : List Char), s.length ≤ n →
      sort_diacritics s = sort_diacriticsSpec s := by
    intro n
    induction n with
    | zero =>
      intro s h
      have : s = [] := List.eq_nil_of_length_eq_zero (Nat.le_zero.mp h)
      subst this
      rfl
    | succ n ih =>
      intro s hlen
      cases s with
      | nil => rfl
      | cons c cs =>
        cases hm : matchAt (c :: cs) with
        | mk m r =>
          cases m with
          | nil =>
            rw [sort_diacritics_cons_nomatch hm, sort_diacriticsSpec_cons_nomatch hm,
              ih cs (by simpa using Nat.le_of_succ_le_succ hlen)]
          | cons m0 ms =>
            have hne : m0 :: ms ≠ [] := by simp
            obtain ⟨d1, lig, d2, hshape, hd1, hd2, hlig⟩ := matchAt_shape (c :: cs)
            rw [hm] at hshape
            have hr : r.length ≤ n := by
              have := matchAt_snd_length hm hne
              have hcs : cs.length ≤ n := Nat.le_of_succ_le_succ hlen
              omega
            rw [sort_diacritics_cons_match hm hne, sort_diacriticsSpec_cons_match hm hne,
              ih r hr, regex_sort_func_eq_spec hshape hd1 hd2 hlig]
  intro s
  exact H s.length s (Nat.le_refl _)

/-- C1: `sort_diacritics` rewrites each maximal diacritic cluster — as
matched by the scan: a contiguous run of combining marks with at most one
subjoined `੍`+consonant ligature treated as a unit — into the canonical
order [nukta/udaat/yakash marks ਼ ੑ ੵ, subjoined ligature, vowel signs
ਿ ੇ ੈ ੋ ੌ ੁ ੂ ਾ ੀ, trailing marks ਁ ੱ ਂ ੰ ਃ], leaves every character
outside clusters unchanged in place, returns matched spans of length ≤ 1
unchanged, and in particular maps ੁੋ to ੋੁ. -/
theorem claim_C1_sort_diacritics_canonical :
    (∀ s : List Char, sort_diacritics s = sort_diacriticsSpec s) ∧
    sort_diacritics ['ੁ', 'ੋ'] = ['ੋ', 'ੁ'] :=
  ⟨sort_diacritics_eq_spec, by decide⟩

/-! ## Claim C7: cluster sorting depends only on the multiset of units -/

/-- A unit of a diacritic cluster: a single combining mark, or a subjoined
ligature `੍`+consonant treated as one unit. -/
inductive ClusterUnit : Type
  | mark (c : Char)
  | lig (c : Char)
deriving DecidableEq

/-- The characters of a unit. -/
def unitChars : ClusterUnit → List Char
  | ClusterUnit.mark c => [c]
  | ClusterUnit.lig c => [subjoin_constructor, c]

/-- A unit is well-formed when a mark is one of the single-codepoint
diacritics and a ligature consonant is one of the subjoinable consonants. -/
def unitOK : ClusterUnit → Bool
  | ClusterUnit.mark c => isD c
  | ClusterUnit.lig c => isCons c

/-- Is the unit a subjoined ligature? -/
def unitIsLig : ClusterUnit → Bool
  | ClusterUnit.mark _ => false
  | ClusterUnit.lig _ => true

/-- A diacritic cluster in the claim's sense: well-formed units with at most
one subjoined ligature. -/
def ValidCluster (us : List ClusterUnit) : Prop :=
  (∀ u ∈ us, unitOK u = true) ∧ us.countP unitIsLig ≤ 1

/-- The character string of a cluster. -/
def flattenCluster (us : List ClusterUnit) : List Char :=
  (us.map unitChars).flatten

theorem flattenCluster_nil : flattenCluster [] = [] := rfl

theorem flattenCluster_cons (u : ClusterUnit) (us : List ClusterUnit) :
    flattenCluster (u :: us) = unitChars u ++ flattenCluster us := rfl

theorem flattenCluster_append (us1 us2 : List ClusterUnit) :
    flattenCluster (us1 ++ us2) = flattenCluster us1 ++ flattenCluster us2 := by
  induction us1 with
  | nil => rfl
  | cons u us ih =>
    rw [List.cons_append, flattenCluster_cons, flattenCluster_cons, ih,
      List.append_assoc]

theorem flattenCluster_perm {us1 us2 : List ClusterUnit}
    (h : List.Perm us1 us2) :
    List.Perm (flattenCluster us1) (flattenCluster us2) := by
  induction h with
  | nil => exact List.Perm.refl _
  | cons u _ ih =>
    rw [flattenCluster_cons, flattenCluster_cons]
    exact ih.append_left (unitChars u)
  | swap u v l =>
    rw [flattenCluster_cons, flattenCluster_cons, flattenCluster_cons,
      flattenCluster_cons, ← List.append_assoc, ← List.append_assoc]
    exact ((List.perm_append_comm : List.Perm (unitChars v ++ unitChars u) (unitChars u ++ unitChars v))).append_right _
  | trans _ _ ih1 ih2 => exact ih1.trans ih2

theorem marks_flatten_allD {us : List ClusterUnit}
    (hok : ∀ u ∈ us, unitOK u = true) (hml : ∀ u ∈ us, unitIsLig u = false) :
    ∀ c ∈ flattenCluster us, isD c = true := by
  induction us with
  | nil => intro c hc; exact absurd hc (List.not_mem_nil c)
  | cons u t ih =>
    intro c hc
    rw [flattenCluster_cons] at hc
    rcases List.mem_append.mp hc with h | h
    · cases u with
      | mark d =>
        rcases List.mem_cons.mp h with rfl | h'
        · exact hok (ClusterUnit.mark c) (by simp)
        · exact absurd h' (List.not_mem_nil c)
      | lig d => exact absurd (hml (ClusterUnit.lig d) (by simp)) (by simp [unitIsLig])
    · exact ih (fun u hu => hok u (by simp [hu])) (fun u hu => hml u (by simp [hu])) c h

/-- A valid cluster is either mark-only or splits as marks, one ligature,
marks. -/
theorem validCluster_decomp {us : List ClusterUnit} (h : ValidCluster us) :
    (∀ u ∈ us, unitIsLig u = false) ∨
    ∃ us1 c us2, us = us1 ++ ClusterUnit.lig c :: us2 ∧ isCons c = true ∧
      (∀ u ∈ us1, unitIsLig u = false) ∧ (∀ u ∈ us2, unitIsLig u = false) := by
  obtain ⟨hok, hcount⟩ := h
  induction us with
  | nil => exact Or.inl (fun u hu => absurd hu (List.not_mem_nil u))
  | cons u t ih =>
    cases u with
    | lig c =>
      refine Or.inr ⟨[], c, t, by simp, ?_, fun u hu => absurd hu (List.not_mem_nil u), ?_⟩
      · have := hok (ClusterUnit.lig c) (by simp)
        simpa [unitOK] using this
      · intro u hu
        by_contra hlig
        have hcount' : 1 ≤ t.countP unitIsLig := by
          have : u ∈ t ∧ unitIsLig u = true := ⟨hu, by simpa using hlig⟩
          calc 1 = [u].countP unitIsLig := by
                simp [List.countP_cons, this.2]
            _ ≤ t.countP unitIsLig := by
                have hsub : [u].Sublist t := List.singleton_sublist.mpr hu
                exact hsub.countP_le unitIsLig
        rw [List.countP_cons] at hcount
        have hone : (if unitIsLig (ClusterUnit.lig c) = true then 1 else 0) = 1 := by
          simp [unitIsLig]
        rw [hone] at hcount
        omega
    | mark c =>
      have hok' : ∀ v ∈ t, unitOK v = true := fun v hv => hok v (by simp [hv])
      have hcount' : t.countP unitIsLig ≤ 1 := by
        rw [List.countP_cons] at hcount
        have hzero : (if unitIsLig (ClusterUnit.mark c) = true then 1 else 0) = 0 := by
          simp [unitIsLig]
        rw [hzero] at hcount
        omega
      rcases ih hok' hcount' with hml | ⟨us1, d, us2, heq, hd, h1, h2⟩
      · refine Or.inl ?_
        intro v hv
        rcases List.mem_cons.mp hv with rfl | hv'
        · rfl
        · exact hml v hv'
      · refine Or.inr ⟨ClusterUnit.mark c :: us1, d, us2, by rw [heq]; rfl, hd, ?_, h2⟩
        intro v hv
        rcases List.mem_cons.mp hv with rfl | hv'
        · rfl
        · exact h1 v hv'

theorem takeWhile_append_of_all {p : Char → Bool} :
    ∀ {l r : List Char}, (∀ x ∈ l, p x = true) →
      (l ++ r).takeWhile p = l ++ r.takeWhile p := by
  intro l
  induction l with
  | nil => intro r _; rfl
  | cons c cs ih =>
    intro r h
    rw [List.cons_append, List.takeWhile_cons, if_pos (h c (by simp)),
      ih (fun x hx => h x (by simp [hx]))]
    rfl

theorem dropWhile_append_of_all {p : Char → Bool} :
    ∀ {l r : List Char}, (∀ x ∈ l, p x = true) →
      (l ++ r).dropWhile p = r.dropWhile p := by
  intro l
  induction l with
  | nil => intro r _; rfl
  | cons c cs ih =>
    intro r h
    rw [List.cons_append, List.dropWhile_cons, if_pos (h c (by simp))]
    exact ih (fun x hx => h x (by simp [hx]))

theorem matchAt_full_marks {l : List Char} (h : ∀ c ∈ l, isD c = true) :
    matchAt l = (l, []) := by
  have ht : l.takeWhile isD = l := by
    have := takeWhile_append_of_all (r := []) h
    simpa using this
  have hd : l.dropWhile isD = [] := by
    have := dropWhile_append_of_all (r := []) h
    simpa using this
  rw [matchAt_eq_nolig (by intro c r2 hc; rw [hd] at hc; exact absurd hc (by simp)),
    ht, hd]

theorem matchAt_full_cluster {d1 d2 : List Char} {c : Char}
    (h1 : ∀ x ∈ d1, isD x = true) (hc : isCons c = true)
    (h2 : ∀ x ∈ d2, isD x = true) :
    matchAt (d1 ++ subjoin_constructor :: c :: d2) =
      (d1 ++ subjoin_constructor :: c :: d2, []) := by
  have hdrop : (d1 ++ subjoin_constructor :: c :: d2).dropWhile isD =
      subjoin_constructor :: c :: d2 := by
    rw [dropWhile_append_of_all h1, List.dropWhile_cons, if_neg (by simp [isD_virama])]
  have htake2 : d2.takeWhile isD = d2 := by
    have := takeWhile_append_of_all (r := []) h2
    simpa using this
  have hdrop2 : d2.dropWhile isD = [] := by
    have := dropWhile_append_of_all (r := []) h2
    simpa using this
  rw [matchAt_eq_lig hdrop hc, htake2, hdrop2]
  have htake1 : (d1 ++ subjoin_constructor :: c :: d2).takeWhile isD = d1 := by
    rw [takeWhile_append_of_all h1, List.takeWhile_cons,
      if_neg (by simp [isD_virama])]
    simp
  rw [htake1]

theorem sort_of_single_match {s : List Char} (h : matchAt s = (s, [])) :
    sort_diacritics s = regex_sort_func s := by
  cases s with
  | nil => rfl
  | cons c cs =>
    rw [sort_diacritics_cons_match h (by simp), sort_diacritics_nil, List.append_nil]

theorem regex_sort_func_perm_eq {m1 m2 : List Char} (hp : List.Perm m1 m2)
    (hmem : ∀ a ∈ m1, a ∈ generated_diacritic_order) :
    regex_sort_func m1 = regex_sort_func m2 := by
  by_cases h : 1 < m1.length
  · have h2 : 1 < m2.length := hp.length_eq ▸ h
    rw [regex_sort_func, if_pos h, regex_sort_func, if_pos h2,
      sortK_eq_sortByKey, sortK_eq_sortByKey]
    have hpermA : List.Perm (sortByKey sortKey m1) m1 := sortByKey_perm _ _
    have hpermB : List.Perm (sortByKey sortKey m2) m2 := sortByKey_perm _ _
    refine eq_of_perm_of_pairwise_key sortKey
      ((hpermA.trans hp).trans hpermB.symm)
      (pairwise_sortByKey _ _) (pairwise_sortByKey _ _) ?_
    intro a ha b hb hab
    exact sortKey_inj a (hmem a (hpermA.mem_iff.mp ha))
      b (hmem b (hpermA.mem_iff.mp hb)) hab
  · cases m1 with
    | nil => rw [(List.Perm.nil_eq hp).symm]
    | cons a t =>
      have hlen : t.length = 0 := by
        simp only [List.length_cons] at h
        omega
      have ht : t = [] := List.eq_nil_of_length_eq_zero hlen
      subst ht
      cases m2 with
      | nil => exact absurd (List.Perm.nil_eq hp.symm) (by simp)
      | cons b t2 =>
        have hlen2 : (b :: t2).length = 1 := by
          rw [← hp.length_eq]
          rfl
        have ht2 : t2 = [] := by
          simp only [List.length_cons] at hlen2
          exact List.eq_nil_of_length_eq_zero (by omega)
        subst ht2
        have : a = b := by
          have := hp.mem_iff.mp (show a ∈ [a] by simp)
          simpa using this
        rw [this]

theorem validCluster_single_match {us : List ClusterUnit} (h : ValidCluster us) :
    matchAt (flattenCluster us) = (flattenCluster us, []) := by
  rcases validCluster_decomp h with hml | ⟨us1, c, us2, heq, hc, h1, h2⟩
  · exact matchAt_full_marks (marks_flatten_allD h.1 hml)
  · subst heq
    have hok := h.1
    have hok1 : ∀ u ∈ us1, unitOK u = true := fun u hu => hok u (by simp [hu])
    have hok2 : ∀ u ∈ us2, unitOK u = true := fun u hu => hok u (by simp [hu])
    have hflat : flattenCluster (us1 ++ ClusterUnit.lig c :: us2) =
        flattenCluster us1 ++ subjoin_constructor :: c :: flattenCluster us2 := by
      rw [flattenCluster_append, flattenCluster_cons]
      rfl
    rw [hflat]
    exact matchAt_full_cluster (marks_flatten_allD hok1 h1) hc
      (marks_flatten_allD hok2 h2)

theorem validCluster_mem_gdo {us : List ClusterUnit}
    (hok : ∀ u ∈ us, unitOK u = true) :
    ∀ a ∈ flattenCluster us, a ∈ generated_diacritic_order := by
  induction us with
  | nil => intro a ha; exact absurd ha (List.not_mem_nil a)
  | cons u t ih =>
    intro a ha
    rw [flattenCluster_cons] at ha
    rcases List.mem_append.mp ha with h' | h'
    · cases u with
      | mark d =>
        rcases List.mem_cons.mp h' with rfl | h''
        · exact gsc_sub_gdo a (isD_iff_mem.mp (by
            have := hok (ClusterUnit.mark a) (by simp)
            simpa [unitOK] using this))
        · exact absurd h'' (List.not_mem_nil a)
      | lig d =>
        rcases List.mem_cons.mp h' with rfl | h''
        · exact virama_mem_gdo
        · rcases List.mem_cons.mp h'' with rfl | h3
          · refine cons_sub_gdo a (isCons_iff_mem.mp ?_)
            have := hok (ClusterUnit.lig a) (by simp)
            simpa [unitOK] using this
          · exact absurd h3 (List.not_mem_nil a)
    · exact ih (fun u hu => hok u (by simp [hu])) a h'

/-- C7: cluster sorting depends only on the multiset of units — for any two
valid diacritic clusters (well-formed marks with at most one subjoined
ligature, the ligature treated as one unit) that are permutations of each
other, `sort_diacritics` produces identical output. -/
theorem claim_C7_cluster_sort_multiset (us1 us2 : List ClusterUnit)
    (h1 : ValidCluster us1) (h2 : ValidCluster us2) (hp : List.Perm us1 us2) :
    sort_diacritics (flattenCluster us1) = sort_diacritics (flattenCluster us2) := by
  rw [sort_of_single_match (validCluster_single_match h1),
    sort_of_single_match (validCluster_single_match h2)]
  exact regex_sort_func_perm_eq (flattenCluster_perm hp) (validCluster_mem_gdo h1.1)

/-- C7 witness: the clusters ੁ+(੍ਹ) and (੍ਹ)+ੁ are permutations of one
another and sort identically. -/
theorem claim_C7_witness :
    ValidCluster [ClusterUnit.mark 'ੁ', ClusterUnit.lig 'ਹ'] ∧
    ValidCluster [ClusterUnit.lig 'ਹ', ClusterUnit.mark 'ੁ'] ∧
    List.Perm [ClusterUnit.mark 'ੁ', ClusterUnit.lig 'ਹ']
      [ClusterUnit.lig 'ਹ', ClusterUnit.mark 'ੁ'] ∧
    sort_diacritics (flattenCluster [ClusterUnit.mark 'ੁ', ClusterUnit.lig 'ਹ']) =
      sort_diacritics (flattenCluster [ClusterUnit.lig 'ਹ', ClusterUnit.mark 'ੁ']) := by
  refine ⟨⟨by decide, by decide⟩, ⟨by decide, by decide⟩, ?_, ?_⟩
  · exact List.Perm.swap _ _ _
  · exact claim_C7_cluster_sort_multiset _ _ ⟨by decide, by decide⟩ ⟨by decide, by decide⟩
      (List.Perm.swap _ _ _)

/-! ## Claim C6: order-independence of the sanitization replacements -/

theorem replace2_nil (a b v : Char) : replace2 a b v [] = [] := rfl

theorem replace2_one (a b v x : Char) : replace2 a b v [x] = [x] := rfl

theorem replace2_cons₂ (a b v x y : Char) (t : List Char) :
    replace2 a b v (x :: y :: t) =
      if x = a ∧ y = b then v :: replace2 a b v t
      else x :: replace2 a b v (y :: t) := rfl

theorem replace2_cons_of_ne_first {a b v x : Char} (hx : x ≠ a) :
    ∀ l, replace2 a b v (x :: l) = x :: replace2 a b v l := by
  intro l
  cases l with
  | nil => rfl
  | cons y t =>
    rw [replace2_cons₂, if_neg (by rintro ⟨rfl, _⟩; exact hx rfl)]

theorem replace2_ne_nil {a b v : Char} : ∀ {l : List Char}, l ≠ [] →
    replace2 a b v l ≠ [] := by
  intro l hl
  match l with
  | [x] => simp [replace2_one]
  | x :: y :: t =>
    rw [replace2_cons₂]
    by_cases h : x = a ∧ y = b
    · rw [if_pos h]; simp
    · rw [if_neg h]; simp

theorem replace2_head_cases {a b v : Char} :
    ∀ {l : List Char} {z : Char} {t' : List Char},
      replace2 a b v l = z :: t' → z = v ∨ ∃ t'', l = z :: t'' := by
  intro l z t' h
  match l with
  | [] => exact absurd h (by simp [replace2_nil])
  | [x] =>
    rw [replace2_one] at h
    exact Or.inr ⟨[], by rw [(List.cons.injEq _ _ _ _).mp h |>.1]⟩
  | x :: y :: t =>
    rw [replace2_cons₂] at h
    by_cases hc : x = a ∧ y = b
    · rw [if_pos hc] at h
      exact Or.inl ((List.cons.injEq _ _ _ _).mp h).1.symm
    · rw [if_neg hc] at h
      exact Or.inr ⟨y :: t, by rw [((List.cons.injEq _ _ _ _).mp h).1]⟩

theorem replace2_comm {a1 b1 v1 a2 b2 v2 : Char}
    (hkey : ¬(a1 = a2 ∧ b1 = b2))
    (hb1a2 : b1 ≠ a2) (hb2a1 : b2 ≠ a1)
    (hv1a2 : v1 ≠ a2) (hv1b2 : v1 ≠ b2)
    (hv2a1 : v2 ≠ a1) (hv2b1 : v2 ≠ b1) :
    ∀ s, replace2 a1 b1 v1 (replace2 a2 b2 v2 s) =
      replace2 a2 b2 v2 (replace2 a1 b1 v1 s) := by
  have H : ∀ (n : Nat) (s : List Char), s.length ≤ n →
      replace2 a1 b1 v1 (replace2 a2 b2 v2 s) =
        replace2 a2 b2 v2 (replace2 a1 b1 v1 s) := by
    intro n
    induction n with
    | zero =>
      intro s h
      have : s = [] := List.eq_nil_of_length_eq_zero (Nat.le_zero.mp h)
      subst this
      rfl
    | succ n ih =>
      intro s hlen
      match s with
      | [] => rfl
      | [x] => rfl
      | x :: y :: t =>
        have hlt : t.length ≤ n := by
          simp only [List.length_cons] at hlen
          omega
        have hlyt : (y :: t).length ≤ n := by
          simp only [List.length_cons] at hlen ⊢
          omega
        by_cases h1 : x = a1 ∧ y = b1
        · have h2 : ¬(x = a2 ∧ y = b2) := by
            rintro ⟨hxa, hyb⟩
            exact hkey ⟨h1.1.symm.trans hxa, h1.2.symm.trans hyb⟩
          have hya2 : y ≠ a2 := fun h => hb1a2 (h1.2.symm.trans h)
          rw [replace2_cons₂ a2 b2 v2, if_neg h2,
            replace2_cons_of_ne_first hya2,
            replace2_cons₂ a1 b1 v1, if_pos h1,
            replace2_cons₂ a1 b1 v1, if_pos h1,
            replace2_cons_of_ne_first hv1a2, ih t hlt]
        · by_cases h2 : x = a2 ∧ y = b2
          · have hyb1 : y ≠ a1 := fun h => hb2a1 (h2.2.symm.trans h)
            rw [replace2_cons₂ a1 b1 v1, if_neg h1,
              replace2_cons_of_ne_first hyb1,
              replace2_cons₂ a2 b2 v2, if_pos h2,
              replace2_cons₂ a2 b2 v2, if_pos h2,
              replace2_cons_of_ne_first hv2a1, ih t hlt]
          · rw [replace2_cons₂ a1 b1 v1, if_neg h1,
              replace2_cons₂ a2 b2 v2, if_neg h2]
            cases hg : replace2 a2 b2 v2 (y :: t) with
            | nil => exact absurd hg (replace2_ne_nil (by simp))
            | cons z t' =>
              cases hf : replace2 a1 b1 v1 (y :: t) with
              | nil => exact absurd hf (replace2_ne_nil (by simp))
              | cons w t'' =>
                have hstep1 : replace2 a1 b1 v1 (x :: z :: t') =
                    x :: replace2 a1 b1 v1 (z :: t') := by
                  rw [replace2_cons₂, if_neg ?_]
                  rintro ⟨hxa, hzb⟩
                  rcases replace2_head_cases hg with h | ⟨t3, h⟩
                  · exact hv2b1 (h.symm.trans hzb)
                  · rcases (List.cons.injEq _ _ _ _).mp h with ⟨h', _⟩
                    exact h1 ⟨hxa, h'.trans hzb⟩
                have hstep2 : replace2 a2 b2 v2 (x :: w :: t'') =
                    x :: replace2 a2 b2 v2 (w :: t'') := by
                  rw [replace2_cons₂, if_neg ?_]
                  rintro ⟨hxa, hwb⟩
                  rcases replace2_head_cases hf with h | ⟨t3, h⟩
                  · exact hv1b2 (h.symm.trans hwb)
                  · rcases (List.cons.injEq _ _ _ _).mp h with ⟨h', _⟩
                    exact h2 ⟨hxa, h'.trans hwb⟩
                rw [hstep1, hstep2, ← hg, ← hf, ih (y :: t) hlyt]
  intro s
  exact H s.length s (Nat.le_refl _)

/-- Apply a sanitization table (a list of two-character-key replacements) in
order — the loop body of `sanitize_unicode`, abstracted over the table. -/
def applySanTable (t : List (Char × Char × Char)) (s : List Char) : List Char :=
  t.foldl (fun s e => replace2 e.1 e.2.1 e.2.2 s) s

theorem sanitize_eq_applySanTable (s : List Char) :
    sanitize_unicode s = applySanTable unicode_sanitization_map s := rfl

theorem applySanTable_cons (e : Char × Char × Char)
    (t : List (Char × Char × Char)) (s : List Char) :
    applySanTable (e :: t) s = applySanTable t (replace2 e.1 e.2.1 e.2.2 s) := rfl

/-- Two table entries commute on every string. -/
def EntryCommutes (e1 e2 : Char × Char × Char) : Prop :=
  ∀ s, replace2 e1.1 e1.2.1 e1.2.2 (replace2 e2.1 e2.2.1 e2.2.2 s) =
    replace2 e2.1 e2.2.1 e2.2.2 (replace2 e1.1 e1.2.1 e1.2.2 s)

/-- The decidable character conditions under which two entries commute:
distinct keys, no overlap between one key's second character and the other's
first, and neither value re-creating or entering the other's key. -/
def CommOK (e1 e2 : Char × Char × Char) : Prop :=
  ¬(e1.1 = e2.1 ∧ e1.2.1 = e2.2.1) ∧ e1.2.1 ≠ e2.1 ∧ e2.2.1 ≠ e1.1 ∧
    e1.2.2 ≠ e2.1 ∧ e1.2.2 ≠ e2.2.1 ∧ e2.2.2 ≠ e1.1 ∧ e2.2.2 ≠ e1.2.1

instance (e1 e2 : Char × Char × Char) : Decidable (CommOK e1 e2) := by
  unfold CommOK
  infer_instance

theorem commutes_of_CommOK {e1 e2 : Char × Char × Char} (h : CommOK e1 e2) :
    EntryCommutes e1 e2 :=
  fun s => replace2_comm h.1 h.2.1 h.2.2.1 h.2.2.2.1 h.2.2.2.2.1
    h.2.2.2.2.2.1 h.2.2.2.2.2.2 s

theorem commutes_self (e : Char × Char × Char) : EntryCommutes e e :=
  fun _ => rfl

theorem table_commutes : ∀ e1 ∈ unicode_sanitization_map,
    ∀ e2 ∈ unicode_sanitization_map, EntryCommutes e1 e2 := by
  have h : ∀ e1 ∈ unicode_sanitization_map, ∀ e2 ∈ unicode_sanitization_map,
      e1 = e2 ∨ CommOK e1 e2 := by decide
  intro e1 h1 e2 h2
  rcases h e1 h1 e2 h2 with rfl | hc
  · exact commutes_self e1
  · exact commutes_of_CommOK hc

theorem applySanTable_perm :
    ∀ {t1 t2 : List (Char × Char × Char)}, List.Perm t1 t2 →
      (∀ e1 ∈ t1, ∀ e2 ∈ t1, EntryCommutes e1 e2) →
      ∀ s, applySanTable t1 s = applySanTable t2 s := by
  intro t1 t2 hp
  induction hp with
  | nil => intro _ _; rfl
  | cons e hp' ih =>
    intro hc s
    rw [applySanTable_cons, applySanTable_cons]
    exact ih (fun e1 h1 e2 h2 => hc e1 (by simp [h1]) e2 (by simp [h2])) _
  | swap e1 e2 l =>
    intro hc s
    rw [applySanTable_cons, applySanTable_cons, applySanTable_cons,
      applySanTable_cons]
    exact congrArg _ ((hc e1 (by simp) e2 (by simp)) s)
  | trans hp1 hp2 ih1 ih2 =>
    intro hc s
    rw [ih1 hc s]
    refine ih2 ?_ s
    intro e1 h1 e2 h2
    exact hc e1 (hp1.mem_iff.mpr h1) e2 (hp1.mem_iff.mpr h2)

/-- C6: the result of `sanitize_unicode` does not depend on the order of the
table's sixteen replacements — applying them in any permutation of the
declared order yields the same string, for every input. -/
theorem claim_C6_sanitize_order_independence (l : List (Char × Char × Char))
    (hp : List.Perm l unicode_sanitization_map) (s : List Char) :
    applySanTable l s = sanitize_unicode s := by
  have hc : ∀ e1 ∈ l, ∀ e2 ∈ l, EntryCommutes e1 e2 := by
    intro e1 h1 e2 h2
    exact table_commutes e1 (hp.mem_iff.mp h1) e2 (hp.mem_iff.mp h2)
  rw [sanitize_eq_applySanTable]
  exact applySanTable_perm hp hc s

/-- C6 witness: the reversed table applied to ਅਾੱਂ gives the same result as
the declared order. -/
theorem claim_C6_witness :
    List.Perm unicode_sanitization_map.reverse unicode_sanitization_map ∧
    applySanTable unicode_sanitization_map.reverse ['ਅ', 'ਾ', 'ੱ', 'ਂ'] =
      sanitize_unicode ['ਅ', 'ਾ', 'ੱ', 'ਂ'] :=
  ⟨by decide, claim_C6_sanitize_order_independence _ (by decide) _⟩

/-! ## The codepoint codec (unicode.py lines 402-444).

Python characters are modelled as `Nat` code points in 0..0x10FFFF (a Python
`str` may hold lone surrogates, which Lean's `Char` cannot, so `Nat` is the
faithful carrier).  `decode_unicode` uses `format(ord(c), "04x")` — lowercase
hex, zero-padded to at least four digits; `encode_unicode` uses
`chr(int(string, 16))`, which raises (modelled as `none`) when the string is
not a valid hexadecimal integer literal or the value is outside 0..0x10FFFF.
CPython's `int` first transforms the string character-wise — any Unicode
decimal digit becomes the ASCII digit of the same value and any Unicode
whitespace becomes a space — and then parses the ASCII result, so e.g.
`int("੫", 16) = 5`; the model reproduces this transform. -/

/-- The lowercase hex digit for `n < 16`. -/
def hexDigitChar (n : Nat) : Char :=
  if n < 10 then Char.ofNat ('0'.toNat + n) else Char.ofNat ('a'.toNat + n - 10)

/-- Hex representation, most significant digit first (fuel-driven; `hexRepr`
supplies `n` itself, which always suffices). -/
def hexAux : Nat → Nat → List Char
  | 0, n => [hexDigitChar (n % 16)]
  | f + 1, n =>
    if n < 16 then [hexDigitChar n]
    else hexAux f (n / 16) ++ [hexDigitChar (n % 16)]

/-- Python `format(n, "x")`: lowercase hex with no prefix. -/
def hexRepr (n : Nat) : List Char := hexAux n n

/-- Python `format(n, "04x")`: zero-padded to at least four digits. -/
def decode_hex (n : Nat) : List Char :=
  List.replicate (4 - (hexRepr n).length) '0' ++ hexRepr n

/-- decode_unicode: each character paired with its `04x` code point. -/
def decode_unicode (s : List Nat) : List (Nat × List Char) :=
  s.map (fun c => (c, decode_hex c))

/-- The zero digit of every Unicode decimal-digit run (category Nd): each run
is ten consecutive code points with decimal values 0..9.  CPython's `int`
first maps every such digit to the corresponding ASCII digit
(`_PyUnicode_TransformDecimalAndSpaceToASCII`). -/
def decimal_digit_zeros : List Nat :=
  [0x30, 0x660, 0x6F0, 0x7C0, 0x966, 0x9E6, 0xA66, 0xAE6, 0xB66, 0xBE6,
   0xC66, 0xCE6, 0xD66, 0xDE6, 0xE50, 0xED0, 0xF20, 0x1040, 0x1090, 0x17E0,
   0x1810, 0x1946, 0x19D0, 0x1A80, 0x1A90, 0x1B50, 0x1BB0, 0x1C40, 0x1C50,
   0xA620, 0xA8D0, 0xA900, 0xA9D0, 0xA9F0, 0xAA50, 0xABF0, 0xFF10, 0x104A0,
   0x10D30, 0x11066, 0x110F0, 0x11136, 0x111D0, 0x112F0, 0x11450, 0x114D0,
   0x11650, 0x116C0, 0x11730, 0x118E0, 0x11950, 0x11C50, 0x11D50, 0x11DA0,
   0x16A60, 0x16AC0, 0x16B50, 0x1D7CE, 0x1D7D8, 0x1D7E2, 0x1D7EC, 0x1D7F6,
   0x1E140, 0x1E2F0, 0x1E950, 0x1FBF0]

/-- The Unicode whitespace code points at or above 127 (`Py_UNICODE_ISSPACE`):
CPython's `int` maps each of them to an ASCII space before parsing. -/
def uni_space_high : List Nat :=
  [0x85, 0xA0, 0x1680, 0x2000, 0x2001, 0x2002, 0x2003, 0x2004, 0x2005,
   0x2006, 0x2007, 0x2008, 0x2009, 0x200A, 0x2028, 0x2029, 0x202F, 0x205F,
   0x3000]

/-- `Py_UNICODE_TODECIMAL`: the decimal value of a Unicode decimal digit. -/
def toDecimal (cp : Nat) : Option Nat :=
  (decimal_digit_zeros.find? (fun z => decide (z ≤ cp) && decide (cp < z + 10))).map
    (fun z => cp - z)

/-- CPython's `_PyUnicode_TransformDecimalAndSpaceToASCII`, applied by `int`
to each character before the ASCII parse: characters below 127 pass through,
Unicode whitespace becomes a space, Unicode decimal digits become the ASCII
digit of the same value, and anything else becomes `?` (which then fails the
ASCII parse). -/
def transformChar (c : Char) : Char :=
  if c.toNat < 127 then c
  else if uni_space_high.contains c.toNat then ' '
  else
    match toDecimal c.toNat with
    | some d => Char.ofNat (48 + d)
    | none => '?'

/-- The whitespace stripped by the ASCII-level parser of Python's `int`
(`Py_ISSPACE`; after `transformChar` every remaining whitespace character is
one of these). -/
def isPySpace (c : Char) : Bool :=
  [' ', '\t', '\n', '\r', '\x0B', '\x0C'].contains c

/-- Hexadecimal digit? -/
def isHexDig (c : Char) : Bool :=
  ('0' ≤ c && c ≤ '9') || ('a' ≤ c && c ≤ 'f') || ('A' ≤ c && c ≤ 'F')

/-- Value of a hex digit. -/
def hexVal (c : Char) : Nat :=
  if c ≤ '9' then c.toNat - '0'.toNat
  else if c ≤ 'F' then c.toNat - 'A'.toNat + 10
  else c.toNat - 'a'.toNat + 10

/-- Digits with optional single underscores between digits (Python's numeric
literal grammar: an underscore must be followed by a digit and may not lead,
trail, or repeat). -/
def parseHexBody : Nat → List Char → Option Nat
  | acc, [] => some acc
  | acc, c :: t =>
    if c = '_' then
      match t with
      | c2 :: t2 =>
        if isHexDig c2 then parseHexBody (16 * acc + hexVal c2) t2 else none
      | [] => none
    else if isHexDig c then parseHexBody (16 * acc + hexVal c) t else none

/-- A nonempty digit string (must start with a digit). -/
def parseHexDigits : List Char → Option Nat
  | [] => none
  | c :: t => if isHexDig c then parseHexBody (hexVal c) t else none

/-- After the optional sign: an optional `0x`/`0X` prefix (an underscore may
directly follow the prefix), then digits. -/
def parseAfterSign : List Char → Option Nat
  | c :: x :: rest =>
    if c = '0' ∧ (x = 'x' ∨ x = 'X') then
      match rest with
      | '_' :: r2 => parseHexDigits r2
      | r2 => parseHexDigits r2
    else parseHexDigits (c :: x :: rest)
  | s => parseHexDigits s

/-- Strip surrounding whitespace. -/
def stripPySpace (s : List Char) : List Char :=
  ((s.dropWhile isPySpace).reverse.dropWhile isPySpace).reverse

/-- Python `int(s, 16)`: first the per-character Unicode-to-ASCII transform
(decimal digits and whitespace), then surrounding whitespace, an optional
sign, an optional `0x` prefix, and underscore-separated hex digits. -/
def pythonIntHex (s : List Char) : Option Int :=
  match stripPySpace (s.map transformChar) with
  | [] => none
  | c :: r =>
    if c = '+' then (parseAfterSign r).map (fun n => (n : Int))
    else if c = '-' then (parseAfterSign r).map (fun n => -(n : Int))
    else (parseAfterSign (c :: r)).map (fun n => (n : Int))

/-- Python `chr`: accepts exactly 0..0x10FFFF (surrogates included). -/
def pythonChr (i : Int) : Option Nat :=
  if 0 ≤ i ∧ i ≤ 0x10FFFF then some i.toNat else none

/-- `chr(int(string, 16))` for one list element. -/
def encodeOne (s : List Char) : Option Nat :=
  (pythonIntHex s).bind pythonChr

/-- encode_unicode: the `for string in strings` loop; the first failing
element raises (modelled by `none`). -/
def encode_unicode : List (List Char) → Option (List Nat)
  | [] => some []
  | s :: rest =>
    match encodeOne s with
    | none => none
    | some n =>
      match encode_unicode rest with
      | none => none
      | some l => some (n :: l)

/-! ## Round-trip of the codec (claim C9) -/

theorem hexAux_mono : ∀ (f1 f2 n : Nat), n ≤ f1 → n ≤ f2 →
    hexAux f1 n = hexAux f2 n := by
  intro f1
  induction f1 with
  | zero =>
    intro f2 n h1 _
    have : n = 0 := Nat.le_zero.mp h1
    subst this
    cases f2 with
    | zero => rfl
    | succ f => rw [hexAux, hexAux, if_pos (by omega)]
  | succ f1 ih =>
    intro f2 n h1 h2
    cases f2 with
    | zero =>
      have : n = 0 := Nat.le_zero.mp h2
      subst this
      rw [hexAux, hexAux, if_pos (by omega)]
    | succ f2 =>
      rw [hexAux, hexAux]
      by_cases h : n < 16
      · rw [if_pos h, if_pos h]
      · rw [if_neg h, if_neg h]
        have hdiv : n / 16 < n := Nat.div_lt_self (by omega) (by omega)
        rw [ih f2 (n / 16) (by omega) (by omega)]

theorem hexRepr_small {n : Nat} (h : n < 16) : hexRepr n = [hexDigitChar n] := by
  rw [hexRepr]
  cases n with
  | zero => rfl
  | succ m => rw [hexAux, if_pos h]

theorem hexRepr_step {n : Nat} (h : 16 ≤ n) :
    hexRepr n = hexRepr (n / 16) ++ [hexDigitChar (n % 16)] := by
  rw [hexRepr]
  cases n with
  | zero => omega
  | succ m =>
    rw [hexAux, if_neg (by omega)]
    have hdiv : (m + 1) / 16 < m + 1 := Nat.div_lt_self (by omega) (by omega)
    rw [hexAux_mono m ((m + 1) / 16) ((m + 1) / 16) (by omega) (Nat.le_refl _)]
    rfl

theorem hexDigitChar_facts : ∀ k < 16, isHexDig (hexDigitChar k) = true ∧
    hexVal (hexDigitChar k) = k := by decide

theorem hexRepr_all_digits : ∀ n, ∀ c ∈ hexRepr n, isHexDig c = true := by
  have H : ∀ (b n : Nat), n ≤ b → ∀ c ∈ hexRepr n, isHexDig c = true := by
    intro b
    induction b with
    | zero =>
      intro n hn c hc
      have : n = 0 := Nat.le_zero.mp hn
      subst this
      rw [hexRepr_small (by omega)] at hc
      rcases List.mem_cons.mp hc with rfl | h
      · exact (hexDigitChar_facts 0 (by omega)).1
      · exact absurd h (List.not_mem_nil c)
    | succ b ih =>
      intro n hn c hc
      by_cases h : n < 16
      · rw [hexRepr_small h] at hc
        rcases List.mem_cons.mp hc with rfl | h'
        · exact (hexDigitChar_facts n h).1
        · exact absurd h' (List.not_mem_nil c)
      · rw [hexRepr_step (by omega)] at hc
        rcases List.mem_append.mp hc with h' | h'
        · have hdiv : n / 16 < n := Nat.div_lt_self (by omega) (by omega)
          exact ih (n / 16) (by omega) c h'
        · rcases List.mem_cons.mp h' with rfl | h''
          · exact (hexDigitChar_facts (n % 16) (Nat.mod_lt n (by omega))).1
          · exact absurd h'' (List.not_mem_nil c)
  intro n
  exact H n n (Nat.le_refl n)

theorem hexRepr_ne_nil (n : Nat) : hexRepr n ≠ [] := by
  by_cases h : n < 16
  · rw [hexRepr_small h]; simp
  · rw [hexRepr_step (by omega)]; simp

theorem parseHexBody_cons (acc : Nat) (c : Char) (t : List Char) :
    parseHexBody acc (c :: t) =
      if c = '_' then
        match t with
        | c2 :: t2 =>
          if isHexDig c2 then parseHexBody (16 * acc + hexVal c2) t2 else none
        | [] => none
      else if isHexDig c then parseHexBody (16 * acc + hexVal c) t else none := by
  rw [parseHexBody.eq_def]

theorem parseHexBody_digits :
    ∀ (l : List Char) (acc : Nat), (∀ c ∈ l, isHexDig c = true) →
      parseHexBody acc l =
        some (l.foldl (fun a c => 16 * a + hexVal c) acc) := by
  intro l
  induction l with
  | nil => intro acc _; rfl
  | cons c t ih =>
    intro acc h
    have hc : isHexDig c = true := h c (by simp)
    have hcne : c ≠ '_' := by
      rintro rfl
      exact absurd hc (by decide)
    rw [parseHexBody_cons, if_neg hcne, if_pos hc,
      ih _ (fun x hx => h x (by simp [hx]))]
    rfl

theorem parseHexDigits_digits {l : List Char}
    (h : ∀ c ∈ l, isHexDig c = true) (hne : l ≠ []) :
    parseHexDigits l = some (l.foldl (fun a c => 16 * a + hexVal c) 0) := by
  cases l with
  | nil => exact absurd rfl hne
  | cons c t =>
    rw [parseHexDigits, if_pos (h c (by simp)),
      parseHexBody_digits t (hexVal c) (fun x hx => h x (by simp [hx]))]
    simp [List.foldl_cons]

theorem foldl_hexRepr : ∀ (b n acc : Nat), n ≤ b →
    (hexRepr n).foldl (fun a c => 16 * a + hexVal c) acc =
      acc * 16 ^ (hexRepr n).length + n := by
  intro b
  induction b with
  | zero =>
    intro n acc hn
    have : n = 0 := Nat.le_zero.mp hn
    subst this
    rw [hexRepr_small (by omega)]
    simp [List.foldl, (hexDigitChar_facts 0 (by omega)).2]
    ring
  | succ b ih =>
    intro n acc hn
    by_cases h : n < 16
    · rw [hexRepr_small h]
      simp [List.foldl, (hexDigitChar_facts n h).2]
      ring
    · rw [hexRepr_step (by omega), List.foldl_append, List.length_append]
      have hdiv : n / 16 < n := Nat.div_lt_self (by omega) (by omega)
      rw [ih (n / 16) acc (by omega)]
      simp only [List.foldl, List.length_cons, List.length_nil]
      rw [(hexDigitChar_facts (n % 16) (Nat.mod_lt n (by omega))).2]
      have hsplit : 16 * (n / 16) + n % 16 = n := Nat.div_add_mod n 16
      rw [pow_succ]
      have : 16 * (acc * 16 ^ (hexRepr (n / 16)).length + n / 16) + n % 16 =
          acc * (16 ^ (hexRepr (n / 16)).length * 16) + (16 * (n / 16) + n % 16) := by
        ring
      rw [this, hsplit]

theorem foldl_pad (k : Nat) :
    (List.replicate k '0').foldl (fun a c => 16 * a + hexVal c) 0 = 0 := by
  induction k with
  | zero => rfl
  | succ k ih =>
    rw [List.replicate_succ]
    simpa [List.foldl] using ih

theorem decode_hex_all_digits (n : Nat) : ∀ c ∈ decode_hex n, isHexDig c = true := by
  intro c hc
  rw [decode_hex] at hc
  rcases List.mem_append.mp hc with h | h
  · have : c = '0' := List.eq_of_mem_replicate h
    subst this
    decide
  · exact hexRepr_all_digits n c h

theorem decode_hex_ne_nil (n : Nat) : decode_hex n ≠ [] := by
  rw [decode_hex]
  intro h
  exact hexRepr_ne_nil n (List.append_eq_nil.mp h).2

theorem parseHexDigits_decode_hex {n : Nat} :
    parseHexDigits (decode_hex n) = some n := by
  rw [parseHexDigits_digits (decode_hex_all_digits n) (decode_hex_ne_nil n),
    decode_hex, List.foldl_append, foldl_pad,
    foldl_hexRepr n n 0 (Nat.le_refl n)]
  simp

theorem dropWhile_eq_self_of {p : Char → Bool} {s : List Char}
    (h : ∀ c ∈ s, p c = false) : s.dropWhile p = s := by
  cases s with
  | nil => rfl
  | cons c t =>
    rw [List.dropWhile_cons, if_neg (by simp [h c (by simp)])]

theorem stripPySpace_eq_self {s : List Char}
    (h : ∀ c ∈ s, isPySpace c = false) : stripPySpace s = s := by
  rw [stripPySpace, dropWhile_eq_self_of h,
    dropWhile_eq_self_of (fun c hc => h c (List.mem_reverse.mp hc)),
    List.reverse_reverse]

theorem hexDig_not_space : ∀ c : Char, isHexDig c = true → isPySpace c = false := by
  intro c h
  cases hps : isPySpace c
  · rfl
  · have hmem : c ∈ [' ', '\t', '\n', '\r', '\x0B', '\x0C'] := by
      rw [isPySpace] at hps
      exact List.elem_iff.mp hps
    have hfalse : isHexDig c = false := by
      fin_cases hmem <;> decide
    rw [hfalse] at h
    exact absurd h (by simp)

theorem transformChar_hexDig {c : Char} (h : isHexDig c = true) :
    transformChar c = c := by
  rw [isHexDig] at h
  simp only [Bool.or_eq_true, Bool.and_eq_true, decide_eq_true_eq] at h
  have hlt : c.toNat < 127 := by
    rcases h with (⟨_, h2⟩ | ⟨_, h2⟩) | ⟨_, h2⟩ <;>
      exact Nat.lt_of_le_of_lt (h2 : c.toNat ≤ _) (by decide)
  rw [transformChar, if_pos hlt]

theorem parseAfterSign_cons₂ (c x : Char) (rest : List Char) :
    parseAfterSign (c :: x :: rest) =
      if c = '0' ∧ (x = 'x' ∨ x = 'X') then
        match rest with
        | '_' :: r2 => parseHexDigits r2
        | r2 => parseHexDigits r2
      else parseHexDigits (c :: x :: rest) := by
  rw [parseAfterSign.eq_def]

theorem parseAfterSign_digits {s : List Char}
    (h : ∀ c ∈ s, isHexDig c = true) (hne : s ≠ []) :
    parseAfterSign s = parseHexDigits s := by
  match s with
  | [] => exact absurd rfl hne
  | [c] => rfl
  | c :: x :: rest =>
    have hx : isHexDig x = true := h x (by simp)
    rw [parseAfterSign_cons₂, if_neg ?_]
    rintro ⟨_, hxx⟩
    rcases hxx with rfl | rfl
    · exact absurd hx (by decide)
    · exact absurd hx (by decide)

theorem pythonIntHex_digits {s : List Char}
    (h : ∀ c ∈ s, isHexDig c = true) (hne : s ≠ []) :
    pythonIntHex s = (parseHexDigits s).map (fun n => (n : Int)) := by
  have hmap : s.map transformChar = s :=
    (List.map_congr_left (fun c hc => transformChar_hexDig (h c hc))).trans
      (List.map_id s)
  rw [pythonIntHex.eq_def, hmap,
    stripPySpace_eq_self (fun c hc => hexDig_not_space c (h c hc))]
  match s, hne with
  | c :: r, _ =>
    show (if c = '+' then (parseAfterSign r).map (fun n => (n : Int))
        else if c = '-' then (parseAfterSign r).map (fun n => -(n : Int))
        else (parseAfterSign (c :: r)).map (fun n => (n : Int))) =
      (parseHexDigits (c :: r)).map (fun n => (n : Int))
    have hc : isHexDig c = true := h c (by simp)
    rw [if_neg ?hplus, if_neg ?hminus]
    · rw [parseAfterSign_digits h (by simp)]
    case hplus =>
      rintro rfl
      exact absurd hc (by decide)
    case hminus =>
      rintro rfl
      exact absurd hc (by decide)

theorem encode_unicode_cons (s : List Char) (rest : List (List Char)) :
    encode_unicode (s :: rest) =
      match encodeOne s with
      | none => none
      | some n =>
        match encode_unicode rest with
        | none => none
        | some l => some (n :: l) := by
  rw [encode_unicode.eq_def]

theorem encodeOne_decode_hex {c : Nat} (h : c ≤ 0x10FFFF) :
    encodeOne (decode_hex c) = some c := by
  rw [encodeOne,
    pythonIntHex_digits (decode_hex_all_digits c) (decode_hex_ne_nil c),
    parseHexDigits_decode_hex]
  show pythonChr ((c : Nat) : Int) = some c
  have h1 : (0 : Int) ≤ (c : Int) := Int.natCast_nonneg c
  have h2 : ((c : Nat) : Int) ≤ 0x10FFFF := by exact_mod_cast h
  rw [pythonChr, if_pos ⟨h1, h2⟩]
  simp

/-- C9: the codec round-trips — for every Python character (code point
0 ≤ C ≤ 0x10FFFF), encoding the hex string that `decode_unicode` produces
for C yields exactly [C]. -/
theorem claim_C9_codec_roundtrip (c : Nat) (h : c ≤ 0x10FFFF) :
    encode_unicode ((decode_unicode [c]).map Prod.snd) = some [c] := by
  have hd : (decode_unicode [c]).map Prod.snd = [decode_hex c] := rfl
  rw [hd, encode_unicode_cons, encodeOne_decode_hex h]
  rfl

/-- C9 witness: the round-trip at the code point of ਜ (U+0A1C). -/
theorem claim_C9_witness :
    (0x0A1C : Nat) ≤ 0x10FFFF ∧
    encode_unicode ((decode_unicode [0x0A1C]).map Prod.snd) = some [0x0A1C] :=
  ⟨by decide, claim_C9_codec_roundtrip 0x0A1C (by decide)⟩

/-! ## Claim C10: failure behaviour of encode_unicode -/

/-- The claim's notion: a hexadecimal string denoting a Unicode scalar value
(code points minus the surrogate range 0xD800..0xDFFF). -/
def validHexScalarValue (s : List Char) : Prop :=
  ∃ n : Nat, pythonIntHex s = some (n : Int) ∧
    (n < 0xD800 ∨ (0xDFFF < n ∧ n ≤ 0x10FFFF))

/-- The amended notion: a string that `int(., 16)` parses (its digits may be
any Unicode decimal digits and its surrounding whitespace any Unicode
whitespace) to a code point 0..0x10FFFF — surrogates included, because
Python's `chr` accepts them. -/
def validHexCodepoint (s : List Char) : Prop :=
  ∃ n : Nat, pythonIntHex s = some (n : Int) ∧ n ≤ 0x10FFFF

/-- C10 counterexample: `"d800"` is not a valid hexadecimal scalar value
(0xD800 is a surrogate), yet `encode_unicode` does not fail on it — it
returns the lone surrogate — contradicting the claimed "if and only if". -/
theorem claim_C10_counterexample :
    encode_unicode [['d', '8', '0', '0']] = some [0xD800] ∧
    ¬ validHexScalarValue ['d', '8', '0', '0'] := by
  constructor
  · decide
  · rintro ⟨n, hn, hr⟩
    have h : pythonIntHex ['d', '8', '0', '0'] = some (55296 : Int) := by decide
    rw [h] at hn
    have hn' : (55296 : Int) = (n : Int) := (Option.some.injEq _ _).mp hn
    have : n = 55296 := by exact_mod_cast hn'.symm
    subst this
    omega

theorem encodeOne_none_iff {s : List Char} :
    encodeOne s = none ↔ ¬ validHexCodepoint s := by
  rw [encodeOne, validHexCodepoint]
  cases hp : pythonIntHex s with
  | none => simp
  | some i =>
    show pythonChr i = none ↔ _
    rw [pythonChr]
    by_cases hc : 0 ≤ i ∧ i ≤ 0x10FFFF
    · rw [if_pos hc]
      constructor
      · intro habs
        exact absurd habs (by simp)
      · intro hnex
        refine absurd ?_ hnex
        refine ⟨i.toNat, by rw [Int.toNat_of_nonneg hc.1], ?_⟩
        exact Int.toNat_le.mpr hc.2
    · rw [if_neg hc]
      constructor
      · rintro _ ⟨n, hn, hle⟩
        have hin : i = (n : Int) := Option.some.inj hn
        exact hc ⟨hin ▸ Int.natCast_nonneg n, hin ▸ (by exact_mod_cast hle)⟩
      · intro _
        rfl

/-- C10 (amended): `encode_unicode` fails exactly when some supplied string
is not a valid hexadecimal code point (a hex integer in 0..0x10FFFF —
surrogates are accepted, unlike scalar values); when every string is valid
it returns the corresponding characters in order. -/
theorem claim_C10_encode_failure_amended (l : List (List Char)) :
    (encode_unicode l = none ↔ ∃ s ∈ l, ¬ validHexCodepoint s) ∧
    ((∀ s ∈ l, validHexCodepoint s) →
      encode_unicode l = some (l.map (fun s => ((pythonIntHex s).getD 0).toNat))) := by
  induction l with
  | nil =>
    constructor
    · simp [encode_unicode]
    · intro _
      rfl
  | cons s rest ih =>
    constructor
    · rw [encode_unicode_cons]
      cases he : encodeOne s with
      | none =>
        constructor
        · intro _
          exact ⟨s, by simp, encodeOne_none_iff.mp he⟩
        · intro _
          rfl
      | some n =>
        show (match encode_unicode rest with
          | none => none
          | some l => some (n :: l)) = none ↔ _
        cases hr : encode_unicode rest with
        | none =>
          constructor
          · intro _
            obtain ⟨s', hm, hv⟩ := ih.1.mp hr
            exact ⟨s', by simp [hm], hv⟩
          · intro _
            rfl
        | some out =>
          constructor
          · intro habs
            exact absurd habs (by simp)
          · rintro ⟨s', hm, hv⟩
            rcases List.mem_cons.mp hm with rfl | hm'
            · exact absurd (encodeOne_none_iff.mpr hv) (by simp [he])
            · have hnone : encode_unicode rest = none :=
                ih.1.mpr ⟨s', hm', hv⟩
              rw [hnone] at hr
              exact absurd hr (by simp)
    · intro hv
      rw [encode_unicode_cons]
      obtain ⟨n, hn, hle⟩ := hv s (by simp)
      have he : encodeOne s = some n := by
        rw [encodeOne, hn]
        show pythonChr ((n : Nat) : Int) = some n
        rw [pythonChr, if_pos ⟨Int.natCast_nonneg n, by exact_mod_cast hle⟩]
        simp
      rw [he]
      show (match encode_unicode rest with
        | none => none
        | some l => some (n :: l)) = _
      rw [ih.2 (fun x hx => hv x (by simp [hx]))]
      simp [List.map_cons, hn]

/-- C10 witness: the amended behaviour evaluated on the valid input
`["0054", "੫"]` — the second string is the Gurmukhi digit five U+0A6B, which
`int(., 16)` accepts as the digit 5. -/
theorem claim_C10_witness :
    encode_unicode [['0', '0', '5', '4'], ['੫']] = some [84, 5] := by
  have hv : ∀ s ∈ [['0', '0', '5', '4'], ['੫']], validHexCodepoint s := by
    intro s hs
    rcases List.mem_cons.mp hs with rfl | hs
    · exact ⟨84, by decide, by decide⟩
    rcases List.mem_cons.mp hs with rfl | hs
    · exact ⟨5, by decide, by decide⟩
    · exact absurd hs (List.not_mem_nil s)
  exact ((claim_C10_encode_failure_amended [['0', '0', '5', '4'], ['੫']]).2
    hv).trans (by decide)

/-! ## Claim C2: idempotence of the normalization pipeline.

Normalization is *not* idempotent in general (see the counterexample below);
it is idempotent on strings without the subjoining virama, with at most one
nukta and at most one addak.  The development below proves the amended
statement: for such strings, the sorted string is locally sorted (`ChainR`),
sanitization preserves local sortedness, and sanitization leaves no
replaceable pair behind. -/

/-- Adjacent-character invariant: any two adjacent diacritics appear in
sort-key order.  Characters outside the diacritic class are unconstrained. -/
def ChainR (s : List Char) : Prop :=
  List.Chain' (fun a b => isD a = true → isD b = true → sortKey a ≤ sortKey b) s

/-- On a virama-free string the regex match is the maximal diacritic run. -/
theorem matchAt_novir {s : List Char}
    (h : ∀ c ∈ s, c ≠ subjoin_constructor) :
    matchAt s = (s.takeWhile isD, s.dropWhile isD) := by
  refine matchAt_eq_nolig ?_
  intro c r2 hd _
  have : subjoin_constructor ∈ s := by
    refine (List.dropWhile_suffix isD).subset ?_
    rw [hd]
    simp
  exact absurd rfl (h subjoin_constructor this)

theorem dropWhile_head_false {p : Char → Bool} :
    ∀ {l : List Char} {h : Char} {t : List Char}, l.dropWhile p = h :: t → p h = false := by
  intro l
  induction l with
  | nil => intro h t hd; exact absurd hd (by simp)
  | cons c cs ih =>
    intro h t hd
    rw [List.dropWhile_cons] at hd
    by_cases hp : p c
    · rw [if_pos (by simpa using hp)] at hd
      exact ih hd
    · rw [if_neg (by simpa using hp)] at hd
      rcases (List.cons.injEq _ _ _ _).mp hd with ⟨rfl, _⟩
      simpa using hp

theorem mem_replace2 {a b v : Char} :
    ∀ {x : List Char} {c : Char}, c ∈ replace2 a b v x → c ∈ x ∨ c = v := by
  have H : ∀ (n : Nat) (x : List Char), x.length ≤ n → ∀ {c : Char},
      c ∈ replace2 a b v x → c ∈ x ∨ c = v := by
    intro n
    induction n with
    | zero =>
      intro x hx c hc
      have : x = [] := List.eq_nil_of_length_eq_zero (Nat.le_zero.mp hx)
      subst this
      exact Or.inl hc
    | succ n ih =>
      intro x hx c hc
      match x with
      | [] => exact Or.inl hc
      | [p] => exact Or.inl hc
      | p :: q :: t =>
        have hlt : t.length ≤ n := by
          simp only [List.length_cons] at hx
          omega
        have hlqt : (q :: t).length ≤ n := by
          simp only [List.length_cons] at hx ⊢
          omega
        rw [replace2_cons₂] at hc
        by_cases hpq : p = a ∧ q = b
        · rw [if_pos hpq] at hc
          rcases List.mem_cons.mp hc with rfl | hc'
          · exact Or.inr rfl
          · rcases ih t hlt hc' with h | h
            · exact Or.inl (by simp [h])
            · exact Or.inr h
        · rw [if_neg hpq] at hc
          rcases List.mem_cons.mp hc with rfl | hc'
          · exact Or.inl (by simp)
          · rcases ih (q :: t) hlqt hc' with h | h
            · exact Or.inl (by simp [h])
            · exact Or.inr h
  intro x c hc
  exact H x.length x (Nat.le_refl _) hc

theorem count_replace2_le {a b v c : Char} (hvc : v ≠ c) :
    ∀ x : List Char, (replace2 a b v x).count c ≤ x.count c := by
  have H : ∀ (n : Nat) (x : List Char), x.length ≤ n →
      (replace2 a b v x).count c ≤ x.count c := by
    intro n
    induction n with
    | zero =>
      intro x hx
      have : x = [] := List.eq_nil_of_length_eq_zero (Nat.le_zero.mp hx)
      subst this
      exact Nat.le_refl _
    | succ n ih =>
      intro x hx
      match x with
      | [] => exact Nat.le_refl _
      | [p] => exact Nat.le_refl _
      | p :: q :: t =>
        have hlt : t.length ≤ n := by
          simp only [List.length_cons] at hx
          omega
        have hlqt : (q :: t).length ≤ n := by
          simp only [List.length_cons] at hx ⊢
          omega
        rw [replace2_cons₂]
        by_cases hpq : p = a ∧ q = b
        · rw [if_pos hpq, List.count_cons, List.count_cons, List.count_cons]
          have hv0 : (if (v == c) = true then 1 else 0) = 0 := by simp [hvc]
          rw [hv0]
          have := ih t hlt
          omega
        · rw [if_neg hpq, List.count_cons, List.count_cons]
          have := ih (q :: t) hlqt
          omega
  intro x
  exact H x.length x (Nat.le_refl _)

theorem sortByKey_eq_self_of_pairwise (k : Char → Nat) :
    ∀ {l : List Char}, l.Pairwise (fun a b => k a ≤ k b) → sortByKey k l = l := by
  intro l
  induction l with
  | nil => intro _; rfl
  | cons c cs ih =>
    intro h
    rcases List.pairwise_cons.mp h with ⟨hc, hcs⟩
    rw [sortByKey, ih hcs]
    cases cs with
    | nil => rfl
    | cons x xs =>
      rw [insertByKey, if_pos (hc x (by simp))]

/-- On an all-diacritic run the adjacent invariant gives full pairwise
sortedness. -/
theorem chain_run_pairwise :
    ∀ {m : List Char}, (∀ c ∈ m, isD c = true) → ChainR m →
      m.Pairwise (fun a b => sortKey a ≤ sortKey b) := by
  intro m
  induction m with
  | nil => intro _ _; exact List.Pairwise.nil
  | cons c t ih =>
    intro hd hc
    have hct : ChainR t := hc.tail
    have hpt : t.Pairwise (fun a b => sortKey a ≤ sortKey b) :=
      ih (fun x hx => hd x (by simp [hx])) hct
    refine List.pairwise_cons.mpr ⟨?_, hpt⟩
    intro b hb
    cases t with
    | nil => exact absurd hb (List.not_mem_nil b)
    | cons h t' =>
      have hch : sortKey c ≤ sortKey h := by
        have := (List.chain'_cons'.mp hc).1 h (by simp)
        exact this (hd c (by simp)) (hd h (by simp))
      rcases List.mem_cons.mp hb with rfl | hb'
      · exact hch
      · have : sortKey h ≤ sortKey b :=
          (List.pairwise_cons.mp hpt).1 b hb'
        omega

theorem rsf_eq_self_of_pairwise {m : List Char}
    (h : m.Pairwise (fun a b => sortKey a ≤ sortKey b)) :
    regex_sort_func m = m := by
  rw [regex_sort_func]
  by_cases hl : 1 < m.length
  · rw [if_pos hl, sortK_eq_sortByKey, sortByKey_eq_self_of_pairwise sortKey h]
  · rw [if_neg hl]

theorem chainR_of_pairwiseKey {l : List Char}
    (h : l.Pairwise (fun a b => sortKey a ≤ sortKey b)) : ChainR l :=
  (h.imp (fun hab => fun _ _ => hab)).chain'

/-- On a virama-free, adjacently-sorted string the sorter is the
identity. -/
theorem sort_eq_self_of_chain :
    ∀ {s : List Char}, (∀ c ∈ s, c ≠ subjoin_constructor) → ChainR s →
      sort_diacritics s = s := by
  have H : ∀ (n : Nat) (s : List Char), s.length ≤ n →
      (∀ c ∈ s, c ≠ subjoin_constructor) → ChainR s → sort_diacritics s = s := by
    intro n
    induction n with
    | zero =>
      intro s hl _ _
      have : s = [] := List.eq_nil_of_length_eq_zero (Nat.le_zero.mp hl)
      subst this
      rfl
    | succ n ih =>
      intro s hl hvir hch
      cases s with
      | nil => rfl
      | cons c cs =>
        have hma := matchAt_novir hvir
        by_cases hc : isD c
        · have htw : (c :: cs).takeWhile isD = c :: cs.takeWhile isD := by
            rw [List.takeWhile_cons, if_pos hc]
          have hdw : (c :: cs).dropWhile isD = cs.dropWhile isD := by
            rw [List.dropWhile_cons, if_pos hc]
          rw [htw, hdw] at hma
          rw [sort_diacritics_cons_match hma (by simp)]
          have hmem : ∀ x ∈ c :: cs.takeWhile isD, isD x = true := by
            intro x hx
            rw [← htw] at hx
            exact List.mem_takeWhile_imp hx
          have hchm : ChainR (c :: cs.takeWhile isD) := by
            refine hch.prefix ?_
            rw [← htw]
            exact List.takeWhile_prefix isD
          rw [rsf_eq_self_of_pairwise (chain_run_pairwise hmem hchm)]
          have hsuf : List.IsSuffix (cs.dropWhile isD) (c :: cs) := by
            refine (List.dropWhile_suffix isD).trans ?_
            exact List.suffix_cons c cs
          rw [ih (cs.dropWhile isD)
            (by
              have := List.IsSuffix.length_le (show List.IsSuffix (cs.dropWhile isD) cs from List.dropWhile_suffix isD)
              simp only [List.length_cons] at hl
              omega)
            (fun x hx => hvir x (hsuf.subset hx))
            (hch.suffix hsuf)]
          rw [← hdw, ← htw, List.takeWhile_append_dropWhile]
        · have htw : (c :: cs).takeWhile isD = [] := by
            rw [List.takeWhile_cons, if_neg (by simp [hc])]
          rw [htw] at hma
          rw [sort_diacritics_cons_nomatch hma,
            ih cs (by simp only [List.length_cons] at hl; omega)
              (fun x hx => hvir x (by simp [hx])) hch.tail]
  intro s hvir hch
  exact H s.length s (Nat.le_refl _) hvir hch

/-- The sorter's output on a virama-free string is adjacently sorted. -/
theorem chainR_sort :
    ∀ {s : List Char}, (∀ c ∈ s, c ≠ subjoin_constructor) →
      ChainR (sort_diacritics s) := by
  have H : ∀ (n : Nat) (s : List Char), s.length ≤ n →
      (∀ c ∈ s, c ≠ subjoin_constructor) → ChainR (sort_diacritics s) := by
    intro n
    induction n with
    | zero =>
      intro s hl _
      have : s = [] := List.eq_nil_of_length_eq_zero (Nat.le_zero.mp hl)
      subst this
      exact List.chain'_nil
    | succ n ih =>
      intro s hl hvir
      cases s with
      | nil => exact List.chain'_nil
      | cons c cs =>
        have hma := matchAt_novir hvir
        by_cases hc : isD c
        · have htw : (c :: cs).takeWhile isD = c :: cs.takeWhile isD := by
            rw [List.takeWhile_cons, if_pos hc]
          have hdw : (c :: cs).dropWhile isD = cs.dropWhile isD := by
            rw [List.dropWhile_cons, if_pos hc]
          rw [htw, hdw] at hma
          rw [sort_diacritics_cons_match hma (by simp)]
          have hsuf : List.IsSuffix (cs.dropWhile isD) (c :: cs) :=
            (List.dropWhile_suffix isD).trans (List.suffix_cons c cs)
          have hvir' : ∀ x ∈ cs.dropWhile isD, x ≠ subjoin_constructor :=
            fun x hx => hvir x (hsuf.subset hx)
          have hlen' : (cs.dropWhile isD).length ≤ n := by
            have := List.IsSuffix.length_le (show List.IsSuffix (cs.dropWhile isD) cs from List.dropWhile_suffix isD)
            simp only [List.length_cons] at hl
            omega
          refine List.chain'_append.mpr ⟨?_, ih _ hlen' hvir', ?_⟩
          · rw [regex_sort_func]
            by_cases hlm : 1 < (c :: cs.takeWhile isD).length
            · rw [if_pos hlm, sortK_eq_sortByKey]
              exact chainR_of_pairwiseKey (pairwise_sortByKey sortKey _)
            · rw [if_neg hlm]
              cases htwcs : cs.takeWhile isD with
              | nil => exact List.chain'_singleton c
              | cons a t =>
                rw [htwcs] at hlm
                simp only [List.length_cons] at hlm
                omega
          · intro x _ y hy
            cases hdcs : cs.dropWhile isD with
            | nil =>
              rw [hdcs, sort_diacritics_nil] at hy
              exact absurd hy (by simp)
            | cons h t =>
              have hhd : isD h = false := dropWhile_head_false hdcs
              have hsort : sort_diacritics (h :: t) = h :: sort_diacritics t := by
                have hvir'' : ∀ x ∈ h :: t, x ≠ subjoin_constructor := by
                  rw [← hdcs]
                  exact hvir'
                have hmt := matchAt_novir hvir''
                rw [List.takeWhile_cons, if_neg (by simp [hhd])] at hmt
                exact sort_diacritics_cons_nomatch hmt
              rw [hdcs, hsort] at hy
              have hyh : h = y := by simpa using hy
              subst hyh
              intro _ hyd
              rw [hhd] at hyd
              exact absurd hyd (by simp)
        · have htw : (c :: cs).takeWhile isD = [] := by
            rw [List.takeWhile_cons, if_neg (by simp [hc])]
          rw [htw] at hma
          rw [sort_diacritics_cons_nomatch hma]
          refine List.chain'_cons'.mpr ⟨?_, ih cs (by simp only [List.length_cons] at hl; omega)
            (fun x hx => hvir x (by simp [hx]))⟩
          intro h _ hcd
          exact absurd hcd hc
  intro s hvir
  exact H s.length s (Nat.le_refl _) hvir

theorem replace2_head_eq {a b v : Char} :
    ∀ {l : List Char} {z : Char} {t' : List Char},
      replace2 a b v l = z :: t' →
      (∃ t0, l = a :: b :: t0 ∧ z = v) ∨ (∃ t0, l = z :: t0) := by
  intro l z t' h
  match l with
  | [] => exact absurd h (by simp [replace2_nil])
  | [x] =>
    rw [replace2_one] at h
    exact Or.inr ⟨[], by rw [((List.cons.injEq _ _ _ _).mp h).1]⟩
  | x :: y :: t =>
    rw [replace2_cons₂] at h
    by_cases hc : x = a ∧ y = b
    · rw [if_pos hc] at h
      exact Or.inl ⟨t, by rw [hc.1, hc.2], ((List.cons.injEq _ _ _ _).mp h).1.symm⟩
    · rw [if_neg hc] at h
      exact Or.inr ⟨y :: t, by rw [((List.cons.injEq _ _ _ _).mp h).1]⟩

/-- A replacement whose value is not a diacritic preserves the adjacent
sортedness invariant. -/
theorem chainR_replace2_of_not_D {a b v : Char} (hv : isD v = false) :
    ∀ x : List Char, ChainR x → ChainR (replace2 a b v x) := by
  have H : ∀ (n : Nat) (x : List Char), x.length ≤ n → ChainR x →
      ChainR (replace2 a b v x) := by
    intro n
    induction n with
    | zero =>
      intro x hl hch
      have : x = [] := List.eq_nil_of_length_eq_zero (Nat.le_zero.mp hl)
      subst this
      exact hch
    | succ n ih =>
      intro x hl hch
      match x with
      | [] => exact hch
      | [p] => exact hch
      | p :: q :: t =>
        have hlt : t.length ≤ n := by
          simp only [List.length_cons] at hl
          omega
        have hlqt : (q :: t).length ≤ n := by
          simp only [List.length_cons] at hl ⊢
          omega
        rw [replace2_cons₂]
        by_cases hpq : p = a ∧ q = b
        · rw [if_pos hpq]
          refine List.chain'_cons'.mpr ⟨?_, ih t hlt hch.tail.tail⟩
          intro h _ hvD
          exact absurd hvD (by simp [hv])
        · rw [if_neg hpq]
          refine List.chain'_cons'.mpr ⟨?_, ih (q :: t) hlqt hch.tail⟩
          intro h hmem
          cases hrep : replace2 a b v (q :: t) with
          | nil => exact absurd hrep (replace2_ne_nil (by simp))
          | cons z t' =>
            rw [hrep] at hmem
            have hz : z = h := by simpa using hmem
            subst hz
            rcases replace2_head_eq hrep with ⟨t0, _, rfl⟩ | ⟨t0, hqz⟩
            · intro _ hvD
              exact absurd hvD (by simp [hv])
            · have hq : q = z := ((List.cons.injEq _ _ _ _).mp hqz).1
              subst hq
              exact (List.chain'_cons'.mp hch).1 q (by simp)
  intro x hch
  exact H x.length x (Nat.le_refl _) hch

theorem addak_key_facts :
    sortKey 'ਁ' = 20 ∧ sortKey 'ੱ' = 21 ∧ sortKey 'ਂ' = 22 ∧
    isD 'ਁ' = true ∧ isD 'ਂ' = true ∧ isD 'ੱ' = true := by decide

theorem key_le21_not_addak :
    ∀ p, isD p = true → sortKey p ≤ 21 → p ≠ 'ੱ' → sortKey p ≤ 20 := by
  have h : ∀ p ∈ generated_single_chars,
      sortKey p ≤ 21 → p ≠ 'ੱ' → sortKey p ≤ 20 := by decide
  intro p hp
  exact h p (isD_iff_mem.mp hp)

/-- The addak+bindi → adak-bindi replacement preserves the adjacent
sortedness invariant on strings with at most one addak. -/
theorem chainR_replace2_addak :
    ∀ x : List Char, ChainR x → x.count 'ੱ' ≤ 1 →
      ChainR (replace2 'ੱ' 'ਂ' 'ਁ' x) := by
  have H : ∀ (n : Nat) (x : List Char), x.length ≤ n → ChainR x →
      x.count 'ੱ' ≤ 1 → ChainR (replace2 'ੱ' 'ਂ' 'ਁ' x) := by
    intro n
    induction n with
    | zero =>
      intro x hl hch _
      have : x = [] := List.eq_nil_of_length_eq_zero (Nat.le_zero.mp hl)
      subst this
      exact hch
    | succ n ih =>
      intro x hl hch hcount
      match x with
      | [] => exact hch
      | [p] => exact hch
      | p :: q :: t =>
        have hlt : t.length ≤ n := by
          simp only [List.length_cons] at hl
          omega
        have hlqt : (q :: t).length ≤ n := by
          simp only [List.length_cons] at hl ⊢
          omega
        have hcqt : (q :: t).count 'ੱ' ≤ 1 := by
          have := List.count_cons 'ੱ' p (q :: t)
          omega
        rw [replace2_cons₂]
        by_cases hpq : p = 'ੱ' ∧ q = 'ਂ'
        · rw [if_pos hpq]
          have hct : t.count 'ੱ' ≤ 1 := by
            rw [List.count_cons, List.count_cons] at hcount
            omega
          refine List.chain'_cons'.mpr ⟨?_, ih t hlt hch.tail.tail hct⟩
          intro h hmem
          cases hrep : replace2 'ੱ' 'ਂ' 'ਁ' t with
          | nil =>
            rw [hrep] at hmem
            exact absurd hmem (by simp)
          | cons z t' =>
            rw [hrep] at hmem
            have hz : z = h := by simpa using hmem
            subst hz
            rcases replace2_head_eq hrep with ⟨t0, _, rfl⟩ | ⟨t0, htz⟩
            · intro _ _
              rw [addak_key_facts.1]
            · intro _ hzD
              have hchain : isD 'ਂ' = true → isD z = true → sortKey 'ਂ' ≤ sortKey z := by
                have htl := hch.tail
                rw [hpq.2] at htl
                refine (List.chain'_cons'.mp htl).1 z ?_
                rw [htz]
                simp
              have hb := hchain addak_key_facts.2.2.2.1 hzD
              rw [addak_key_facts.1]
              rw [addak_key_facts.2.2.1] at hb
              omega
        · rw [if_neg hpq]
          refine List.chain'_cons'.mpr ⟨?_, ih (q :: t) hlqt hch.tail hcqt⟩
          intro h hmem
          cases hrep : replace2 'ੱ' 'ਂ' 'ਁ' (q :: t) with
          | nil => exact absurd hrep (replace2_ne_nil (by simp))
          | cons z t' =>
            rw [hrep] at hmem
            have hz : z = h := by simpa using hmem
            subst hz
            rcases replace2_head_eq hrep with ⟨t0, hqt, rfl⟩ | ⟨t0, hqz⟩
            · have hq : q = 'ੱ' := ((List.cons.injEq _ _ _ _).mp hqt).1
              have hpne : p ≠ 'ੱ' := by
                rintro rfl
                rw [List.count_cons, List.count_cons, hq] at hcount
                simp at hcount
              intro hpD _
              have hle21 : sortKey p ≤ 21 := by
                have hrel := (List.chain'_cons'.mp hch).1 q (by simp)
                have h21 := hrel hpD (by rw [hq]; exact addak_key_facts.2.2.2.2.2)
                rw [hq, addak_key_facts.2.1] at h21
                exact h21
              rw [addak_key_facts.1]
              exact key_le21_not_addak p hpD hle21 hpne
            · have hq : q = z := ((List.cons.injEq _ _ _ _).mp hqz).1
              subst hq
              exact (List.chain'_cons'.mp hch).1 q (by simp)
  intro x hch hcount
  exact H x.length x (Nat.le_refl _) hch hcount

/-- Does the string contain the adjacent pair `a`,`b`? -/
def hasPair (a b : Char) : List Char → Bool
  | x :: y :: t => (decide (x = a) && decide (y = b)) || hasPair a b (y :: t)
  | _ => false

theorem hasPair_nil (a b : Char) : hasPair a b [] = false := rfl

theorem hasPair_one (a b x : Char) : hasPair a b [x] = false := rfl

theorem hasPair_cons₂ (a b x y : Char) (t : List Char) :
    hasPair a b (x :: y :: t) =
      ((decide (x = a) && decide (y = b)) || hasPair a b (y :: t)) := rfl

theorem hasPair_tail {a b q : Char} {t : List Char}
    (h : hasPair a b (q :: t) = false) : hasPair a b t = false := by
  cases t with
  | nil => rfl
  | cons r t2 =>
    rw [hasPair_cons₂, Bool.or_eq_false_iff] at h
    exact h.2

theorem hasPair_cons_false {a b p q : Char} {t : List Char}
    (h : hasPair a b (p :: q :: t) = false) :
    ¬(p = a ∧ q = b) ∧ hasPair a b (q :: t) = false := by
  rw [hasPair_cons₂, Bool.or_eq_false_iff, Bool.and_eq_false_iff] at h
  refine ⟨?_, h.2⟩
  rintro ⟨rfl, rfl⟩
  rcases h.1 with h' | h' <;> simp at h'

theorem replace2_of_no_pair {a b v : Char} :
    ∀ {x : List Char}, hasPair a b x = false → replace2 a b v x = x := by
  have H : ∀ (n : Nat) (x : List Char), x.length ≤ n →
      hasPair a b x = false → replace2 a b v x = x := by
    intro n
    induction n with
    | zero =>
      intro x hl _
      have : x = [] := List.eq_nil_of_length_eq_zero (Nat.le_zero.mp hl)
      subst this
      rfl
    | succ n ih =>
      intro x hl hnp
      match x with
      | [] => rfl
      | [p] => rfl
      | p :: q :: t =>
        have hlqt : (q :: t).length ≤ n := by
          simp only [List.length_cons] at hl ⊢
          omega
        obtain ⟨hhead, htail⟩ := hasPair_cons_false hnp
        rw [replace2_cons₂, if_neg hhead, ih (q :: t) hlqt htail]
  intro x hnp
  exact H x.length x (Nat.le_refl _) hnp

theorem no_pair_replace2_self {a b v : Char} (hvb : v ≠ b) (hab : v = a → a ≠ b) :
    ∀ x : List Char, (v = a → x.count b ≤ 1) →
      hasPair a b (replace2 a b v x) = false := by
  have H : ∀ (n : Nat) (x : List Char), x.length ≤ n → (v = a → x.count b ≤ 1) →
      hasPair a b (replace2 a b v x) = false := by
    intro n
    induction n with
    | zero =>
      intro x hl _
      have : x = [] := List.eq_nil_of_length_eq_zero (Nat.le_zero.mp hl)
      subst this
      rfl
    | succ n ih =>
      intro x hl hcnt
      match x with
      | [] => rfl
      | [p] => rfl
      | p :: q :: t =>
        have hlt : t.length ≤ n := by
          simp only [List.length_cons] at hl
          omega
        have hlqt : (q :: t).length ≤ n := by
          simp only [List.length_cons] at hl ⊢
          omega
        rw [replace2_cons₂]
        by_cases hpq : p = a ∧ q = b
        · rw [if_pos hpq]
          have hcnt_t : v = a → t.count b ≤ 1 := by
            intro hva
            have := hcnt hva
            rw [List.count_cons, List.count_cons] at this
            omega
          have hbt : v = a → t.count b = 0 := by
            intro hva
            have := hcnt hva
            have hane : a ≠ b := hab hva
            rw [List.count_cons, List.count_cons] at this
            have h1 : (q == b) = true := by simp [hpq.2]
            have h2 : (p == b) = false := by simp [hpq.1, hane]
            rw [h1, h2] at this
            have e1 : (if (true = true) then (1 : Nat) else 0) = 1 := rfl
            have e2 : (if (false = true) then (1 : Nat) else 0) = 0 := rfl
            rw [e1, e2] at this
            omega
          cases hrep : replace2 a b v t with
          | nil => rfl
          | cons z t' =>
            rw [hasPair_cons₂, Bool.or_eq_false_iff]
            constructor
            · rw [Bool.and_eq_false_iff]
              by_cases hva : v = a
              · right
                have hzb : z ≠ b := by
                  rcases replace2_head_eq hrep with ⟨t0, _, rfl⟩ | ⟨t0, htz⟩
                  · rintro rfl
                    exact hvb rfl
                  · intro hzb2
                    have hmem : b ∈ t := by
                      rw [htz, ← hzb2]
                      exact List.mem_cons_self _ _
                    have hpos := List.count_pos_iff.mpr hmem
                    have h0 := hbt hva
                    omega
                simp [hzb]
              · left
                simp [hva]
            · rw [← hrep]
              exact ih t hlt (fun hva => by rw [hbt hva]; omega)
        · rw [if_neg hpq]
          have hcnt' : v = a → (q :: t).count b ≤ 1 := by
            intro hva
            have h9 := hcnt hva
            have hle : (q :: t).count b ≤ (p :: q :: t).count b := by
              nth_rewrite 2 [List.count_cons]
              omega
            exact le_trans hle h9
          cases hrep : replace2 a b v (q :: t) with
          | nil => exact absurd hrep (replace2_ne_nil (by simp))
          | cons z t' =>
            rw [hasPair_cons₂, Bool.or_eq_false_iff]
            constructor
            · rw [Bool.and_eq_false_iff]
              by_cases hpa : p = a
              · right
                have hzb : z ≠ b := by
                  rcases replace2_head_eq hrep with ⟨t0, _, rfl⟩ | ⟨t0, hqz⟩
                  · exact hvb
                  · have hq : q = z := ((List.cons.injEq _ _ _ _).mp hqz).1
                    rintro rfl
                    exact hpq ⟨hpa, hq⟩
                simp [hzb]
              · left
                simp [hpa]
            · rw [← hrep]
              exact ih (q :: t) hlqt hcnt'
  intro x hcnt
  exact H x.length x (Nat.le_refl _) hcnt

theorem no_pair_replace2_other {a b v a' b' : Char} (hva : v ≠ a') (hvb : v ≠ b') :
    ∀ x : List Char, hasPair a' b' x = false →
      hasPair a' b' (replace2 a b v x) = false := by
  have H : ∀ (n : Nat) (x : List Char), x.length ≤ n → hasPair a' b' x = false →
      hasPair a' b' (replace2 a b v x) = false := by
    intro n
    induction n with
    | zero =>
      intro x hl _
      have : x = [] := List.eq_nil_of_length_eq_zero (Nat.le_zero.mp hl)
      subst this
      rfl
    | succ n ih =>
      intro x hl hnp
      match x with
      | [] => rfl
      | [p] => rfl
      | p :: q :: t =>
        have hlt : t.length ≤ n := by
          simp only [List.length_cons] at hl
          omega
        have hlqt : (q :: t).length ≤ n := by
          simp only [List.length_cons] at hl ⊢
          omega
        obtain ⟨hhead, htail⟩ := hasPair_cons_false hnp
        rw [replace2_cons₂]
        by_cases hpq : p = a ∧ q = b
        · rw [if_pos hpq]
          cases hrep : replace2 a b v t with
          | nil => rfl
          | cons z t' =>
            rw [hasPair_cons₂, Bool.or_eq_false_iff]
            refine ⟨by simp [hva], ?_⟩
            rw [← hrep]
            exact ih t hlt (hasPair_tail htail)
        · rw [if_neg hpq]
          cases hrep : replace2 a b v (q :: t) with
          | nil => exact absurd hrep (replace2_ne_nil (by simp))
          | cons z t' =>
            rw [hasPair_cons₂, Bool.or_eq_false_iff]
            constructor
            · rw [Bool.and_eq_false_iff]
              by_cases hpa : p = a'
              · right
                have hzb : z ≠ b' := by
                  rcases replace2_head_eq hrep with ⟨t0, _, rfl⟩ | ⟨t0, hqz⟩
                  · exact hvb
                  · have hq : q = z := ((List.cons.injEq _ _ _ _).mp hqz).1
                    rintro rfl
                    exact hhead ⟨hpa, hq⟩
                simp [hzb]
              · left
                simp [hpa]
            · rw [← hrep]
              exact ih (q :: t) hlqt htail
  intro x hnp
  exact H x.length x (Nat.le_refl _) hnp

/-- The invariant maintained across the sanitization passes: the string is
diacritic-ordered (ChainR), virama-free, and holds at most one nukta and at
most one addak. -/
def SanInv (x : List Char) : Prop :=
  ChainR x ∧ (∀ c ∈ x, c ≠ subjoin_constructor) ∧
    x.count '਼' ≤ 1 ∧ x.count 'ੱ' ≤ 1

/-- Conditions each sanitization-table entry must satisfy for `SanInv` to be
preserved by its pass. -/
def EntryOK (e : Char × Char × Char) : Prop :=
  e.2.2 ≠ subjoin_constructor ∧ e.2.2 ≠ '਼' ∧ e.2.2 ≠ 'ੱ' ∧
    (isD e.2.2 = false ∨ e = ('ੱ', 'ਂ', 'ਁ'))

instance (e : Char × Char × Char) : Decidable (EntryOK e) := by
  unfold EntryOK
  infer_instance

theorem sanTable_entries_ok : ∀ e ∈ unicode_sanitization_map, EntryOK e := by
  decide

theorem sanTable_pair_conds : ∀ e ∈ unicode_sanitization_map,
    e.2.2 ≠ e.2.1 ∧ (e.2.2 = e.1 → e.1 ≠ e.2.1 ∧ e.2.1 = '਼') ∧
      e.2.2 ≠ '਼' := by
  decide

theorem sanTable_pairwise :
    List.Pairwise (fun e e2 => e2.2.2 ≠ e.1 ∧ e2.2.2 ≠ e.2.1)
      unicode_sanitization_map := by
  decide

theorem sanInv_replace2 {e : Char × Char × Char} (he : EntryOK e)
    {x : List Char} (hx : SanInv x) :
    SanInv (replace2 e.1 e.2.1 e.2.2 x) := by
  obtain ⟨hv1, hv2, hv3, hD⟩ := he
  obtain ⟨hch, hvir, hn, ha⟩ := hx
  refine ⟨?_, ?_, ?_, ?_⟩
  · rcases hD with hD | hE
    · exact chainR_replace2_of_not_D hD x hch
    · rw [hE]
      exact chainR_replace2_addak x hch ha
  · intro c hc
    rcases mem_replace2 hc with h | h
    · exact hvir c h
    · rw [h]
      exact hv1
  · exact le_trans (count_replace2_le hv2 x) hn
  · exact le_trans (count_replace2_le hv3 x) ha

theorem sanInv_applySanTable :
    ∀ (t : List (Char × Char × Char)), (∀ e ∈ t, EntryOK e) →
      ∀ {x : List Char}, SanInv x → SanInv (applySanTable t x) := by
  intro t
  induction t with
  | nil =>
    intro _ x hx
    exact hx
  | cons e t ih =>
    intro ht x hx
    rw [applySanTable_cons]
    exact ih (fun q hq => ht q (List.mem_cons_of_mem _ hq))
      (sanInv_replace2 (ht e (List.mem_cons_self _ _)) hx)

theorem no_pair_applySanTable_other {a b : Char} :
    ∀ (t : List (Char × Char × Char)), (∀ e ∈ t, e.2.2 ≠ a ∧ e.2.2 ≠ b) →
      ∀ {x : List Char}, hasPair a b x = false →
        hasPair a b (applySanTable t x) = false := by
  intro t
  induction t with
  | nil =>
    intro _ x hx
    exact hx
  | cons e t ih =>
    intro ht x hx
    rw [applySanTable_cons]
    refine ih (fun q hq => ht q (List.mem_cons_of_mem _ hq)) ?_
    have h := ht e (List.mem_cons_self _ _)
    exact no_pair_replace2_other h.1 h.2 x hx

theorem no_pairs_applySanTable :
    ∀ (t : List (Char × Char × Char)),
      (∀ e ∈ t, e.2.2 ≠ e.2.1 ∧ (e.2.2 = e.1 → e.1 ≠ e.2.1 ∧ e.2.1 = '਼') ∧
        e.2.2 ≠ '਼') →
      List.Pairwise (fun e e2 => e2.2.2 ≠ e.1 ∧ e2.2.2 ≠ e.2.1) t →
      ∀ {x : List Char}, x.count '਼' ≤ 1 →
        ∀ e ∈ t, hasPair e.1 e.2.1 (applySanTable t x) = false := by
  intro t
  induction t with
  | nil =>
    intro _ _ x _ e he
    cases he
  | cons e0 t ih =>
    intro hcond hpw x hcnt e he
    rw [applySanTable_cons]
    have hc0 := hcond e0 (List.mem_cons_self _ _)
    have hcnt2 : (replace2 e0.1 e0.2.1 e0.2.2 x).count '਼' ≤ 1 :=
      le_trans (count_replace2_le hc0.2.2 x) hcnt
    rcases List.mem_cons.mp he with rfl | he2
    · have h0 : hasPair e.1 e.2.1 (replace2 e.1 e.2.1 e.2.2 x) = false := by
        refine no_pair_replace2_self hc0.1 (fun hva => (hc0.2.1 hva).1) x ?_
        intro hva
        rw [(hc0.2.1 hva).2]
        exact hcnt
      exact no_pair_applySanTable_other t (List.pairwise_cons.mp hpw).1 h0
    · exact ih (fun q hq => hcond q (List.mem_cons_of_mem _ hq))
        (List.pairwise_cons.mp hpw).2 hcnt2 e he2

theorem applySanTable_id_of_no_pairs :
    ∀ (t : List (Char × Char × Char)) {x : List Char},
      (∀ e ∈ t, hasPair e.1 e.2.1 x = false) → applySanTable t x = x := by
  intro t
  induction t with
  | nil =>
    intro x _
    rfl
  | cons e t ih =>
    intro x h
    rw [applySanTable_cons, replace2_of_no_pair (h e (List.mem_cons_self _ _))]
    exact ih (fun q hq => h q (List.mem_cons_of_mem _ hq))

set_option maxRecDepth 10000 in
/-- C2: counterexample. The claim says unicode_normalize is idempotent on
every input, but on khha followed by two nuktas one pass leaves a residual
khha+nukta pair (the khha+nukta → khha rule re-creates its own pattern when a
second nukta follows), so a second pass shrinks the string again. -/
theorem claim_C2_counterexample :
    unicode_normalize (unicode_normalize ['ਖ਼', '਼', '਼']) ≠
      unicode_normalize ['ਖ਼', '਼', '਼'] := by
  decide

/-- C2 (amended): unicode_normalize is idempotent on every input that is free
of the subjoin constructor (virama U+0A4D) and holds at most one nukta
(U+0A3C) and at most one addak (U+0A71). After one pass such a string is
diacritic-ordered and no sanitization pattern matches it, so the second pass
is the identity. -/
theorem claim_C2_normalize_idempotent_amended (s : List Char)
    (hvir : ∀ c ∈ s, c ≠ subjoin_constructor)
    (hnukta : s.count '਼' ≤ 1) (haddak : s.count 'ੱ' ≤ 1) :
    unicode_normalize (unicode_normalize s) = unicode_normalize s := by
  have hperm := sort_diacritics_perm s
  have hviru : ∀ c ∈ sort_diacritics s, c ≠ subjoin_constructor :=
    fun c hc => hvir c (hperm.mem_iff.mp hc)
  have hnu : (sort_diacritics s).count '਼' ≤ 1 := by
    rw [hperm.count_eq]
    exact hnukta
  have hau : (sort_diacritics s).count 'ੱ' ≤ 1 := by
    rw [hperm.count_eq]
    exact haddak
  have hchu : ChainR (sort_diacritics s) := chainR_sort hvir
  have hinv : SanInv (sanitize_unicode (sort_diacritics s)) := by
    rw [sanitize_eq_applySanTable]
    exact sanInv_applySanTable unicode_sanitization_map sanTable_entries_ok
      ⟨hchu, hviru, hnu, hau⟩
  have hnp : ∀ e ∈ unicode_sanitization_map,
      hasPair e.1 e.2.1 (sanitize_unicode (sort_diacritics s)) = false := by
    rw [sanitize_eq_applySanTable]
    exact no_pairs_applySanTable unicode_sanitization_map sanTable_pair_conds
      sanTable_pairwise hnu
  obtain ⟨hchw, hvirw, _, _⟩ := hinv
  have h1 : sort_diacritics (sanitize_unicode (sort_diacritics s)) =
      sanitize_unicode (sort_diacritics s) := sort_eq_self_of_chain hvirw hchw
  have h2 : sanitize_unicode (sanitize_unicode (sort_diacritics s)) =
      sanitize_unicode (sort_diacritics s) := by
    rw [sanitize_eq_applySanTable (sanitize_unicode (sort_diacritics s))]
    exact applySanTable_id_of_no_pairs unicode_sanitization_map hnp
  show sanitize_unicode (sort_diacritics (sanitize_unicode (sort_diacritics s)))
    = sanitize_unicode (sort_diacritics s)
  rw [h1, h2]

/-- C2 witness: the amended idempotence theorem applied at the concrete
word guru (ਗੁਰੂ), which satisfies all three hypotheses. -/
theorem claim_C2_witness :
    (∀ c ∈ ['ਗ', 'ੁ', 'ਰ', 'ੂ'],
        c ≠ subjoin_constructor) ∧
      (['ਗ', 'ੁ', 'ਰ', 'ੂ'] : List Char).count '਼' ≤ 1 ∧
      (['ਗ', 'ੁ', 'ਰ', 'ੂ'] : List Char).count 'ੱ' ≤ 1 ∧
      unicode_normalize
          (unicode_normalize ['ਗ', 'ੁ', 'ਰ', 'ੂ']) =
        unicode_normalize ['ਗ', 'ੁ', 'ਰ', 'ੂ'] :=
  ⟨by decide, by decide, by decide,
    claim_C2_normalize_idempotent_amended _ (by decide) (by decide)
      (by decide)⟩

end GurmukhiUtils
